import Mathlib

/-!
Verification of the discovery-and-classification engine of `dandi.files`
(`src/dandi/files/__init__.py`): the classifier `DandiFileType.classify`, the
two factories (`DandiFileFactory`, `BIDSFileFactory`), the traversal
`find_dandi_files`, the helper `dandi_file` and the upward context locator
`find_bids_dataset_description`.

The filesystem is modelled as a finite tree (`FSNode`); paths are lists of
name components.  Python objects with identity (`BIDSDatasetDescriptionAsset`,
whose `dataset_files` list is mutated by the BIDS factory, and to which other
assets hold a weak back-reference) are modelled by a store of records indexed
by natural numbers: a `DandiFile.bidsDD r` value is a reference `r` into the
store, so that "the identical object" is "the same index" and the weak
back-reference of a BIDS asset is the index of its governing description
entity, matching the code's `weakref.ref(...)` discipline.
-/

namespace DandiFiles

/-- A filesystem path, as its list of name components (from the filesystem
root downwards).  `Path.name` in Python is the last component. -/
abbrev FPath := List String

/-- A node of the filesystem tree.  A `file` may be a symbolic link (Python's
`is_file()` follows links, so a link to a file still classifies as a file);
a `dir` records whether it is a symbolic link to a directory (Python's
`is_dir()` is then still true) together with its ordered children. -/
inductive FSNode where
  | file (symlink : Bool)
  | dir (symlink : Bool) (children : List (String × FSNode))
deriving Repr

/-- First child of the given name, in directory order (real directories have
distinct child names, enforced by `FSNode.wfb`). -/
def lookupChild : List (String × FSNode) → String → Option FSNode
  | [], _ => none
  | (n, t) :: rest, s => if n = s then some t else lookupChild rest s

/-- A usable file-name component: nonempty, not `"."`, and without a path
separator. -/
def goodName (s : String) : Bool :=
  s != "" && s != "." && !(s.data.contains '/')

mutual

/-- Well-formedness of a filesystem tree: at every directory, child names are
usable and pairwise distinct. -/
def FSNode.wfb : FSNode → Bool
  | .file _ => true
  | .dir _ cs => wfbChildren cs

/-- Well-formedness of a child list (see `FSNode.wfb`). -/
def wfbChildren : List (String × FSNode) → Bool
  | [] => true
  | (n, t) :: rest =>
      goodName n && !(lookupChild rest n).isSome && t.wfb && wfbChildren rest

end

mutual

/-- Number of nodes of a tree (used to bound the traversal's fuel). -/
def FSNode.sz : FSNode → Nat
  | .file _ => 1
  | .dir _ cs => 1 + szChildren cs

/-- Total node count of a child list. -/
def szChildren : List (String × FSNode) → Nat
  | [] => 0
  | (_, t) :: rest => t.sz + szChildren rest

end

/-- Resolve a path against a tree, descending through the named children. -/
def resolvePath : FPath → FSNode → Option FSNode
  | [], t => some t
  | _ :: _, .file _ => none
  | c :: rest, .dir _ cs =>
      match lookupChild cs c with
      | none => none
      | some u => resolvePath rest u

/-- Last path component (Python's `Path.name`; `""` for the empty path). -/
def pathName (p : FPath) : String := p.getLastD ""

/-- Position of the last `'.'` in a string, if any. -/
def lastDotPos (s : String) : Option Nat :=
  ((List.range s.data.length).filter (fun i => s.data.getD i ' ' = '.')).getLast?

/-- Python's `Path.suffix` of a name: the final extension including its dot,
or `""` when the last dot is absent, leading, or trailing. -/
def nameSuffix (s : String) : String :=
  match lastDotPos s with
  | none => ""
  | some i =>
      if 0 < i ∧ i + 1 < s.data.length then String.mk (s.data.drop i) else ""

/-- Python's `PurePath.as_posix()` on a relative path given by components:
components joined by `"/"`, and `"."` for the empty relative path. -/
def posixJoin : List String → String
  | [] => "."
  | [c] => c
  | c :: rest :: more => c ++ "/" ++ posixJoin (rest :: more)

/-- `name.startswith(".")`: whether the first character is a period. -/
def startsWithDot (s : String) : Bool :=
  match s.data with
  | [] => false
  | c :: _ => c = '.'

/-- Python's `Path.relative_to`: the components of `p` past `root` when
`root` is a prefix of `p`, and `none` (a `ValueError`) otherwise. -/
def relTo (p root : FPath) : Option (List String) :=
  if root <+: p then some (p.drop root.length) else none

/-- Modelled from the spec: the canonical "dataset description" filename
(`BIDS_DATASET_DESCRIPTION` of `dandi.consts`, which is outside `src/`). -/
def BIDS_DATASET_DESCRIPTION : String := "dataset_description.json"

/-- Modelled from the spec: the canonical dataset-metadata filename
(`dandiset_metadata_file` of `dandi.consts`, which is outside `src/`). -/
def dandiset_metadata_file : String := "dandiset.yaml"

/-- Modelled from the spec: the registered directory-asset (chunked-array
store) extension set (`ZARR_EXTENSIONS` of `dandi.consts`, outside `src/`). -/
def ZARR_EXTENSIONS : List String := [".ngff", ".zarr"]

/-- Modelled from the spec: the registered video extension set
(`VIDEO_FILE_EXTENSIONS` of `dandi.consts`, outside `src/`; the spec's
scenario requires `.mp4` to be a member). -/
def VIDEO_FILE_EXTENSIONS : List String :=
  [".avi", ".mts", ".flv", ".mov", ".mp4", ".mkv", ".wmv"]

/-- The `UnknownAssetError` raised by `DandiFileType.classify`: either the
directory is empty, or it has an unrecognized suffix. -/
inductive UnknownAssetError where
  | emptyDir
  | unrecognizedSuffix (sfx : String)
deriving Repr, DecidableEq

/-- The classification tags (`DandiFileType` in the code). -/
inductive DandiFileType where
  | NWB
  | ZARR
  | VIDEO
  | GENERIC
  | BIDS_DATASET_DESCRIPTION
deriving Repr, DecidableEq

/-- `DandiFileType.classify(path)`.  `node` is what `path` resolves to in the
filesystem (`none` when nothing exists there: `is_dir()` is then false and the
path is classified like a file, as in Python), and `nm` is `path.name`. -/
def DandiFileType.classify (node : Option FSNode) (nm : String) :
    Except UnknownAssetError DandiFileType :=
  match node with
  | some (.dir _ cs) =>
      if cs.isEmpty then .error .emptyDir
      else if nameSuffix nm ∈ ZARR_EXTENSIONS then .ok .ZARR
      else .error (.unrecognizedSuffix (nameSuffix nm))
  | _ =>
      if nm = DandiFiles.BIDS_DATASET_DESCRIPTION then .ok .BIDS_DATASET_DESCRIPTION
      else if nameSuffix nm = ".nwb" then .ok .NWB
      else if nameSuffix nm ∈ VIDEO_FILE_EXTENSIONS then .ok .VIDEO
      else .ok .GENERIC

/-- The `DandiFile` class hierarchy, as a closed sum.  A
`BIDSDatasetDescriptionAsset` is represented by a reference (`bidsDD r`) into
the traversal's store, so that returning "the identical object" is returning
the same reference; the other BIDS variants carry their weak back-reference
`ddRef` to the governing description entity. -/
inductive DandiFile where
  | dandisetMetadata (filepath : FPath)
  | nwb (filepath : FPath) (path : String)
  | zarr (filepath : FPath) (path : String)
  | video (filepath : FPath) (path : String)
  | generic (filepath : FPath) (path : String)
  | bidsDD (ref : Nat)
  | nwbBIDS (filepath : FPath) (path : String) (ddRef : Nat)
  | zarrBIDS (filepath : FPath) (path : String) (ddRef : Nat)
  | genericBIDS (filepath : FPath) (path : String) (ddRef : Nat)
deriving Repr, DecidableEq

/-- The state of one `BIDSDatasetDescriptionAsset` object: its identity
fields and its mutable `dataset_files` list. -/
structure DDInfo where
  filepath : FPath
  path : String
  dataset_files : List DandiFile
deriving Repr, DecidableEq

instance : Inhabited DDInfo := ⟨⟨[], "", []⟩⟩

/-- The heap of `BIDSDatasetDescriptionAsset` objects allocated so far;
`DandiFile.bidsDD r` points at index `r`. -/
structure Store where
  descrs : List DDInfo
deriving Repr, DecidableEq

def emptyStore : Store := ⟨[]⟩

/-- Dereference a description-entity handle. -/
def descrAt (s : Store) (r : Nat) : DDInfo := s.descrs.getD r default

/-- Allocate a fresh `BIDSDatasetDescriptionAsset` (empty `dataset_files`). -/
def Store.alloc (s : Store) (fp : FPath) (rp : String) : Nat × Store :=
  (s.descrs.length, ⟨s.descrs ++ [⟨fp, rp, []⟩]⟩)

/-- Update the element at an index of a list in place. -/
def updAt : Nat → (DDInfo → DDInfo) → List DDInfo → List DDInfo
  | _, _, [] => []
  | 0, f, d :: ds => f d :: ds
  | n + 1, f, d :: ds => d :: updAt n f ds

/-- `self.bids_dataset_description.dataset_files.append(df)`. -/
def Store.appendFile (s : Store) (r : Nat) (df : DandiFile) : Store :=
  ⟨updAt r (fun d => ⟨d.filepath, d.path, d.dataset_files ++ [df]⟩) s.descrs⟩

/-- The errors `dandi_file` and the traversal can surface: a propagated
`UnknownAssetError`, the two `ValueError`s of `dandi_file` /
`find_dandi_files`, and a failed `isinstance` assertion. -/
inductive DandiError where
  | unknownAsset (e : UnknownAssetError)
  | invalidPath
  | outsideRoot
  | assertFailed
deriving Repr, DecidableEq

/-- `DandiFileFactory.__call__`: map the classified type to the plain entity
class.  Constructing a `BIDSDatasetDescriptionAsset` allocates a fresh
object. -/
def DandiFileFactory (filepath : FPath) (node : Option FSNode) (path : String)
    (store : Store) : Except DandiError (DandiFile × Store) :=
  match DandiFileType.classify node (pathName filepath) with
  | .error e => .error (.unknownAsset e)
  | .ok .NWB => .ok (.nwb filepath path, store)
  | .ok .ZARR => .ok (.zarr filepath path, store)
  | .ok .VIDEO => .ok (.video filepath path, store)
  | .ok .GENERIC => .ok (.generic filepath path, store)
  | .ok .BIDS_DATASET_DESCRIPTION =>
      let a := store.alloc filepath path
      .ok (.bidsDD a.1, a.2)

/-- `BIDSFileFactory.__call__` with governing description entity `g`:
a `dataset_description.json` at the governing entity's own filepath returns
the governing entity itself; at another path it constructs a fresh plain
description entity; every other type constructs the BIDS variant (video and
generic both map to `GenericBIDSAsset`), wires the back-reference `g`, and
appends the new entity to `g`'s `dataset_files`. -/
def BIDSFileFactory (g : Nat) (filepath : FPath) (node : Option FSNode)
    (path : String) (store : Store) : Except DandiError (DandiFile × Store) :=
  match DandiFileType.classify node (pathName filepath) with
  | .error e => .error (.unknownAsset e)
  | .ok .BIDS_DATASET_DESCRIPTION =>
      if filepath = (descrAt store g).filepath then .ok (.bidsDD g, store)
      else
        let a := store.alloc filepath path
        .ok (.bidsDD a.1, a.2)
  | .ok .NWB =>
      let df := DandiFile.nwbBIDS filepath path g
      .ok (df, store.appendFile g df)
  | .ok .ZARR =>
      let df := DandiFile.zarrBIDS filepath path g
      .ok (df, store.appendFile g df)
  | .ok .VIDEO =>
      let df := DandiFile.genericBIDS filepath path g
      .ok (df, store.appendFile g df)
  | .ok .GENERIC =>
      let df := DandiFile.genericBIDS filepath path g
      .ok (df, store.appendFile g df)

/-- `filepath.is_file()` (symbolic links are followed). -/
def isFileNode : Option FSNode → Bool
  | some (.file _) => true
  | _ => false

/-- `dandi_file(filepath, dandiset_path, bids_dataset_description)`.
`node` is what `filepath` resolves to in the filesystem. -/
def dandi_file (filepath : FPath) (node : Option FSNode)
    (dandiset_path : Option FPath) (bids_dataset_description : Option Nat)
    (store : Store) : Except DandiError (DandiFile × Store) :=
  match (match dandiset_path with
         | some root =>
             match relTo filepath root with
             | none => Except.error DandiError.outsideRoot
             | some rel =>
                 if posixJoin rel = "." then Except.error DandiError.invalidPath
                 else Except.ok (posixJoin rel)
         | none => (Except.ok (pathName filepath) : Except DandiError String)) with
  | .error e => .error e
  | .ok path =>
      if isFileNode node ∧ path = dandiset_metadata_file then
        .ok (.dandisetMetadata filepath, store)
      else
        match bids_dataset_description with
        | none => DandiFileFactory filepath node path store
        | some g => BIDSFileFactory g filepath node path store

/-- The outcome of a (possibly aborted) traversal: the entities yielded in
order, the final heap of description entities, and the error that ended the
generator early, if any. -/
structure TravResult where
  yields : List DandiFile
  store : Store
  err : Option DandiError
deriving Repr, DecidableEq

/-- A work-queue entry: the path, what it resolves to, and the active
dataset-description context (`bidsdd`). -/
abbrev QItem := FPath × Option FSNode × Option Nat

/-- The queue entries for the children of an expanded directory `p`, all
inheriting the context `dd`. -/
def childItems (p : FPath) (cs : List (String × FSNode)) (dd : Option Nat) :
    List QItem :=
  cs.map (fun cn => (p ++ [cn.1], some cn.2, dd))

/-- The context-update step of `find_dandi_files` at an expanded directory
`p` with children `cs`: if `p / dataset_description.json` exists, classify and
construct it (no BIDS context) and make it the new context, asserting that it
really is a description entity. -/
def loadDD (p : FPath) (cs : List (String × FSNode)) (root : Option FPath)
    (old : Option Nat) (store : Store) :
    Except DandiError (Option Nat × Store) :=
  match lookupChild cs BIDS_DATASET_DESCRIPTION with
  | none => .ok (old, store)
  | some dnode =>
      match dandi_file (p ++ [BIDS_DATASET_DESCRIPTION]) (some dnode) root
          none store with
      | .error e => .error e
      | .ok (.bidsDD r, s2) => .ok (some r, s2)
      | .ok _ => .error .assertFailed

/-- `type(df) is GenericAsset`: exactly the plain generic class (a
`GenericBIDSAsset` does not count). -/
def isGenericExactly : DandiFile → Bool
  | .generic _ _ => true
  | _ => false

/-- `isinstance(df, DandisetMetadataFile)`. -/
def isMetadataFile : DandiFile → Bool
  | .dandisetMetadata _ => true
  | _ => false

/-- The filtering applied to a classified file by `find_dandi_files`. -/
def suppressed (allow_all include_metadata : Bool) (df : DandiFile) : Bool :=
  (isGenericExactly df && !allow_all) ||
    (isMetadataFile df && !(allow_all || include_metadata))

/-- Fuel weight of a queue entry (the size of the subtree it resolves to). -/
def qWeight : Option FSNode → Nat
  | none => 1
  | some t => t.sz

/-- Fuel weight of a whole work queue. -/
def qMeasure (q : List QItem) : Nat := (q.map (fun e => qWeight e.2.1)).sum

/-- The `while path_queue:` loop of `find_dandi_files`, with explicit fuel
(each iteration strictly decreases `qMeasure`, so `qMeasure q + 1` fuel always
suffices; see `findLoop_total`).  Returns `none` only when the fuel runs
out. -/
def findLoop (dandiset_path : Option FPath)
    (allow_all include_metadata : Bool) :
    Nat → List QItem → Store → Option TravResult
  | 0, _, _ => none
  | _ + 1, [], store => some ⟨[], store, none⟩
  | fuel + 1, (p, node, bidsdd) :: rest, store =>
    if startsWithDot (pathName p) then
      findLoop dandiset_path allow_all include_metadata fuel rest store
    else
      match node with
      | some (.dir true _) =>
          -- a symbolic link to a directory: warned about and skipped
          findLoop dandiset_path allow_all include_metadata fuel rest store
      | some (.dir false cs) =>
          if dandiset_path = some p then
            match loadDD p cs dandiset_path bidsdd store with
            | .error e => some ⟨[], store, some e⟩
            | .ok (dd2, s2) =>
                findLoop dandiset_path allow_all include_metadata fuel
                  (rest ++ childItems p cs dd2) s2
          else if cs.isEmpty then
            findLoop dandiset_path allow_all include_metadata fuel rest store
          else
            match dandi_file p node dandiset_path bidsdd store with
            | .ok (df, s2) =>
                match findLoop dandiset_path allow_all include_metadata fuel
                    rest s2 with
                | none => none
                | some r => some ⟨df :: r.yields, r.store, r.err⟩
            | .error (.unknownAsset _) =>
                match loadDD p cs dandiset_path bidsdd store with
                | .error e => some ⟨[], store, some e⟩
                | .ok (dd2, s2) =>
                    findLoop dandiset_path allow_all include_metadata fuel
                      (rest ++ childItems p cs dd2) s2
            | .error e => some ⟨[], store, some e⟩
      | _ =>
          match dandi_file p node dandiset_path bidsdd store with
          | .error e => some ⟨[], store, some e⟩
          | .ok (df, s2) =>
              match findLoop dandiset_path allow_all include_metadata fuel
                  rest s2 with
              | none => none
              | some r =>
                  if suppressed allow_all include_metadata df then some r
                  else some ⟨df :: r.yields, r.store, r.err⟩

/-- `find_dandi_files(*paths, dandiset_path, allow_all, include_metadata)`:
validate every starting path against the Dandiset root, then run the work
queue seeded with `(p, None)` for each starting path. -/
def find_dandi_files (fs : FSNode) (paths : List FPath)
    (dandiset_path : Option FPath) (allow_all include_metadata : Bool) :
    Option TravResult :=
  let q0 : List QItem := paths.map (fun p => (p, resolvePath p fs, none))
  match dandiset_path with
  | some root =>
      if paths.all (fun p => (relTo p root).isSome) then
        findLoop dandiset_path allow_all include_metadata (qMeasure q0 + 1) q0
          emptyStore
      else some ⟨[], emptyStore, some .outsideRoot⟩
  | none =>
      findLoop dandiset_path allow_all include_metadata (qMeasure q0 + 1) q0
        emptyStore

/-- `(dirpath, *dirpath.parents)`: the directory and its ancestors, upward,
ending at the filesystem root. -/
def ancestors (p : FPath) : List FPath :=
  (List.range (p.length + 1)).map (fun k => p.take (p.length - k))

/-- `q.is_file() or q.is_symlink()` for a resolved node. -/
def isFileOrSymlink : Option FSNode → Bool
  | some (.file _) => true
  | some (.dir s _) => s
  | none => false

/-- The ancestor walk of `find_bids_dataset_description`. -/
def fbddLoop (fs : FSNode) (dandiset_path : Option FPath) (store : Store) :
    List FPath → Except DandiError (Option Nat × Store)
  | [] => .ok (none, store)
  | d :: rest =>
      if isFileOrSymlink (resolvePath (d ++ [BIDS_DATASET_DESCRIPTION]) fs) then
        match dandi_file (d ++ [BIDS_DATASET_DESCRIPTION])
            (resolvePath (d ++ [BIDS_DATASET_DESCRIPTION]) fs) dandiset_path
            none store with
        | .ok (.bidsDD r, s2) => .ok (some r, s2)
        | .ok _ => .error .assertFailed
        | .error e => .error e
      else if isFileOrSymlink (resolvePath (d ++ [dandiset_metadata_file]) fs)
          then
        .ok (none, store)
      else if dandiset_path = some d then
        .ok (none, store)
      else fbddLoop fs dandiset_path store rest

/-- `find_bids_dataset_description(dirpath, dandiset_path)`. -/
def find_bids_dataset_description (fs : FSNode) (dirpath : FPath)
    (dandiset_path : Option FPath) (store : Store) :
    Except DandiError (Option Nat × Store) :=
  fbddLoop fs dandiset_path store (ancestors dirpath)

/-- `path.is_dir()` for a resolved node. -/
def isDirNode : Option FSNode → Bool
  | some (.dir _ _) => true
  | _ => false

/-- The children of a resolved node (empty for files and missing paths). -/
def childrenOf : Option FSNode → List (String × FSNode)
  | some (.dir _ cs) => cs
  | _ => []

/-- The weak back-reference of a BIDS-tagged asset, if it has one. -/
def DandiFile.bidsRef : DandiFile → Option Nat
  | .nwbBIDS _ _ g => some g
  | .zarrBIDS _ _ g => some g
  | .genericBIDS _ _ g => some g
  | _ => none

/-- The filepath of an asset that carries one directly (the description
entity's lives in the store). -/
def DandiFile.assetPath : DandiFile → FPath
  | .dandisetMetadata fp => fp
  | .nwb fp _ => fp
  | .zarr fp _ => fp
  | .video fp _ => fp
  | .generic fp _ => fp
  | .bidsDD _ => []
  | .nwbBIDS fp _ _ => fp
  | .zarrBIDS fp _ _ => fp
  | .genericBIDS fp _ _ => fp

/-- The root-relative `path` field of an entity, when it has one (reading the
description entity's from the store). -/
def DandiFile.relPath (s : Store) : DandiFile → Option String
  | .dandisetMetadata _ => none
  | .nwb _ rp => some rp
  | .zarr _ rp => some rp
  | .video _ rp => some rp
  | .generic _ rp => some rp
  | .bidsDD r => some (descrAt s r).path
  | .nwbBIDS _ rp _ => some rp
  | .zarrBIDS _ rp _ => some rp
  | .genericBIDS _ rp _ => some rp

/-- The parts of a store the traversal never mutates: existing description
entities keep their identity fields, and the store only grows. -/
def StoreExt (s s2 : Store) : Prop :=
  s.descrs.length ≤ s2.descrs.length
  ∧ ∀ g, g < s.descrs.length →
      (descrAt s2 g).filepath = (descrAt s g).filepath
      ∧ (descrAt s2 g).path = (descrAt s g).path

/-- All contexts in the queue point at allocated description entities. -/
def ctxValid (store : Store) (q : List QItem) : Prop :=
  ∀ e ∈ q, ∀ g, e.2.2 = some g → g < store.descrs.length

/-- Whether directory `d` directly contains a `dataset_description.json`
(the traversal's `.exists()` check). -/
def markerAt (fs : FSNode) (d : FPath) : Bool :=
  (resolvePath (d ++ [BIDS_DATASET_DESCRIPTION]) fs).isSome

/-- The strict prefixes of `p` no shorter than `root`, shallowest first:
the candidate enclosing directories within the dataset. -/
def strictPrefixesFrom (root p : FPath) : List FPath :=
  (List.range' root.length (p.length - root.length)).map (fun k => p.take k)

/-- The deepest strict prefix of `p`, at or below `root`, that directly
contains a `dataset_description.json`: the nearest enclosing description
directory for `p`. -/
def ctxDir (fs : FSNode) (root p : FPath) : Option FPath :=
  ((strictPrefixesFrom root p).filter (fun d => markerAt fs d)).getLast?

/-- A queue entry is consistent: its node is what its path resolves to, its
path lies under the root, and its context (if any) points at an allocated
description entity whose filepath is the marker of the nearest enclosing
description directory. -/
def EntryInv (fs : FSNode) (root : FPath) (store : Store) (e : QItem) :
    Prop :=
  e.2.1 = resolvePath e.1 fs ∧ root <+: e.1 ∧
  ∀ g, e.2.2 = some g → g < store.descrs.length ∧
    ∃ d, ctxDir fs root e.1 = some d ∧
      (descrAt store g).filepath = d ++ [BIDS_DATASET_DESCRIPTION]

/-- The spec's scenario tree: a root `ds` containing `dandiset.yaml`,
`.hidden/ignored.txt`, `empty_dir/` and `sub-01` with `file.nwb` and
`video.mp4`. -/
def scenarioTree : FSNode := .dir false
  [("ds", .dir false
    [("dandiset.yaml", .file false),
     (".hidden", .dir false [("ignored.txt", .file false)]),
     ("empty_dir", .dir false []),
     ("sub-01", .dir false
       [("file.nwb", .file false), ("video.mp4", .file false)])])]

/-- The tree for the C8 counterexample: `w/dataset_description.json` is a
symbolic link pointing at a directory. -/
def c8Tree : FSNode := .dir false
  [("w", .dir false
     [("dataset_description.json", .dir true [("x", .file false)])])]

/-- Children of the dataset root in the C10 witness tree. -/
def c10Children : List (String × FSNode) :=
  [("dataset_description.json", .file false), ("a.nwb", .file false)]

/-- The C10 witness tree: a root with a description file and one NWB file. -/
def c10Tree : FSNode := .dir false [("ds", .dir false c10Children)]

/-- The traversal outcome on the C10 witness tree. -/
def c10Result : TravResult :=
  ⟨[.bidsDD 0, .nwbBIDS ["ds", "a.nwb"] "a.nwb" 0],
   ⟨[⟨["ds", "dataset_description.json"], "dataset_description.json",
      [.nwbBIDS ["ds", "a.nwb"] "a.nwb" 0]⟩]⟩, none⟩

/-- A descent from directory `p` through the children named by `comps`: every
hop lands on a non-dot-named plain (non-symlink) directory that fails
classification — exactly the directories the traversal enters through the
unrecognized-directory fallback — and the final directory directly contains
a `dataset_description.json` regular file. -/
def fallbackDescent (fs : FSNode) : FPath → List String → Prop
  | p, [] => ∃ sl cs, resolvePath p fs = some (.dir false cs)
      ∧ lookupChild cs BIDS_DATASET_DESCRIPTION = some (.file sl)
  | p, c :: rest =>
      startsWithDot c = false
      ∧ (∃ cs, resolvePath (p ++ [c]) fs = some (.dir false cs)
          ∧ ∃ e, DandiFileType.classify (some (.dir false cs))
              (pathName (p ++ [c])) = .error e)
      ∧ fallbackDescent fs (p ++ [c]) rest

/-- Children of the nested directory in the C10 witness tree. -/
def c10bSubChildren : List (String × FSNode) :=
  [("dataset_description.json", .file false), ("a.nwb", .file false)]

/-- The C10 witness tree: the marker sits in a nested plain directory
`ds/sub`, which the traversal only enters through the
unrecognized-directory fallback. -/
def c10bTree : FSNode := .dir false
  [("ds", .dir false [("sub", .dir false c10bSubChildren)])]

/-- The traversal outcome on the C10 witness tree. -/
def c10bResult : TravResult :=
  ⟨[.bidsDD 0, .nwbBIDS ["ds", "sub", "a.nwb"] "sub/a.nwb" 0],
   ⟨[⟨["ds", "sub", "dataset_description.json"],
      "sub/dataset_description.json",
      [.nwbBIDS ["ds", "sub", "a.nwb"] "sub/a.nwb" 0]⟩]⟩, none⟩

/-- The filesystem of the C6 scenario: a Zarr store inside the dataset, with
a file inside the store. -/
def c6Tree : FSNode := .dir false
  [("ds", .dir false
    [("z.zarr", .dir false [("f.txt", .file false)])])]

/-- The outcome of the C6 counterexample traversal. -/
def c6Result : TravResult :=
  ⟨[.zarr ["ds", "z.zarr"] "z.zarr",
    .generic ["ds", "z.zarr", "f.txt"] "z.zarr/f.txt"], emptyStore, none⟩

section Lemmas

/-- `lookupChild` only returns members of the child list. -/
theorem lookupChild_mem {cs : List (String × FSNode)} {c : String}
    {t : FSNode} (h : lookupChild cs c = some t) : (c, t) ∈ cs := by
  induction cs with
  | nil => simp [lookupChild] at h
  | cons hd tl ih =>
      obtain ⟨n, u⟩ := hd
      by_cases hn : n = c
      · subst hn
        simp [lookupChild] at h
        simp [h]
      · simp [lookupChild, hn] at h
        exact List.mem_cons_of_mem _ (ih h)

/-- In a well-formed child list, membership determines the lookup result. -/
theorem wfb_lookup {cs : List (String × FSNode)} {c : String} {t : FSNode}
    (hwf : wfbChildren cs = true) (h : (c, t) ∈ cs) :
    lookupChild cs c = some t := by
  induction cs with
  | nil => simp at h
  | cons hd tl ih =>
      obtain ⟨n, u⟩ := hd
      rw [wfbChildren] at hwf
      simp only [Bool.and_eq_true] at hwf
      rcases List.mem_cons.mp h with heq | hmem
      · obtain ⟨h1, h2⟩ := Prod.mk.injEq .. ▸ heq
        simp_all [lookupChild]
      · have hk : lookupChild tl n = none := by
          cases hl : lookupChild tl n with
          | none => rfl
          | some _ => simp [hl] at hwf
        have hne : n ≠ c := by
          rintro rfl
          have := ih hwf.2 hmem  -- would contradict hk
          simp [hk] at this
        simp [lookupChild, hne]
        exact ih hwf.2 hmem

/-- Children of a well-formed child list are well-formed. -/
theorem wfbChildren_mem {cs : List (String × FSNode)} {c : String}
    {t : FSNode} (hwf : wfbChildren cs = true) (h : (c, t) ∈ cs) :
    t.wfb = true := by
  induction cs with
  | nil => simp at h
  | cons hd tl ih =>
      obtain ⟨n, u⟩ := hd
      rw [wfbChildren] at hwf
      simp only [Bool.and_eq_true] at hwf
      rcases List.mem_cons.mp h with heq | hmem
      · obtain ⟨h1, h2⟩ := Prod.mk.injEq .. ▸ heq
        subst h2
        exact hwf.1.2
      · exact ih hwf.2 hmem

/-- Resolving a concatenated path descends in two stages. -/
theorem resolvePath_append (p q : FPath) (t : FSNode) :
    resolvePath (p ++ q) t
      = (resolvePath p t).bind (fun u => resolvePath q u) := by
  induction p generalizing t with
  | nil => simp [resolvePath]
  | cons c rest ih =>
      cases t with
      | file s => simp [resolvePath]
      | dir s cs =>
          cases h : lookupChild cs c with
          | none => simp [resolvePath, h]
          | some u => simp [resolvePath, h, ih]

/-- Resolution from a well-formed tree lands on a well-formed node. -/
theorem wfb_resolve {t u : FSNode} {p : FPath} (hwf : t.wfb = true)
    (h : resolvePath p t = some u) : u.wfb = true := by
  induction p generalizing t with
  | nil => simp [resolvePath] at h; exact h ▸ hwf
  | cons c rest ih =>
      cases t with
      | file s => simp [resolvePath] at h
      | dir s cs =>
          rw [resolvePath] at h
          cases hl : lookupChild cs c with
          | none => simp [hl] at h
          | some v =>
              rw [hl] at h
              have hv : v.wfb = true :=
                wfbChildren_mem (by simpa [FSNode.wfb] using hwf)
                  (lookupChild_mem hl)
              exact ih hv h

/-- In a well-formed tree, a directory's listed child is what the extended
path resolves to. -/
theorem resolve_child {fs : FSNode} {p : FPath} {s : Bool}
    {cs : List (String × FSNode)} {c : String} {n : FSNode}
    (hwf : fs.wfb = true) (hp : resolvePath p fs = some (.dir s cs))
    (hc : (c, n) ∈ cs) : resolvePath (p ++ [c]) fs = some n := by
  rw [resolvePath_append, hp]
  have hw : (FSNode.dir s cs).wfb = true := wfb_resolve hwf hp
  rw [FSNode.wfb] at hw
  simp [resolvePath, wfb_lookup hw hc]

end Lemmas

section StoreLemmas

theorem updAt_length (r : Nat) (f : DDInfo → DDInfo) (l : List DDInfo) :
    (updAt r f l).length = l.length := by
  induction l generalizing r with
  | nil => simp [updAt]
  | cons d ds ih =>
      cases r with
      | zero => simp [updAt]
      | succ n => simp [updAt, ih]

theorem updAt_get_self {r : Nat} {l : List DDInfo} {f : DDInfo → DDInfo}
    (h : r < l.length) : (updAt r f l)[r]? = l[r]?.map f := by
  induction l generalizing r with
  | nil => simp at h
  | cons d ds ih =>
      cases r with
      | zero => simp [updAt]
      | succ n =>
          have := ih (r := n) (by simpa using Nat.lt_of_succ_lt_succ h)
          simpa [updAt] using this

theorem updAt_get_ne {r : Nat} (r' : Nat) {l : List DDInfo}
    {f : DDInfo → DDInfo} (h : r' ≠ r) : (updAt r f l)[r']? = l[r']? := by
  induction l generalizing r r' with
  | nil => simp [updAt]
  | cons d ds ih =>
      cases r with
      | zero =>
          cases r' with
          | zero => exact absurd rfl h
          | succ m => simp [updAt]
      | succ n =>
          cases r' with
          | zero => simp [updAt]
          | succ m => simpa [updAt] using @ih n m (by omega)

/-- Appending a fresh description entity leaves existing ones readable. -/
theorem descrAt_push_lt {s : Store} {g : Nat} (x : DDInfo)
    (h : g < s.descrs.length) :
    descrAt ⟨s.descrs ++ [x]⟩ g = descrAt s g := by
  simp [descrAt, List.getElem?_append_left h]

theorem descrAt_push_self (s : Store) (x : DDInfo) :
    descrAt ⟨s.descrs ++ [x]⟩ s.descrs.length = x := by
  simp [descrAt, List.getElem?_append_right (Nat.le_refl _)]

/-- `descrAt` of an out-of-range index is the default record. -/
theorem descrAt_ge {s : Store} {g : Nat} (h : s.descrs.length ≤ g) :
    descrAt s g = default := by
  simp [descrAt, List.getElem?_eq_none (by simpa using h)]

theorem descrAt_appendFile_self {s : Store} {g : Nat} (df : DandiFile)
    (h : g < s.descrs.length) :
    descrAt (s.appendFile g df) g
      = ⟨(descrAt s g).filepath, (descrAt s g).path,
         (descrAt s g).dataset_files ++ [df]⟩ := by
  simp only [Store.appendFile, descrAt, List.getD_eq_getElem?_getD,
    updAt_get_self h]
  cases hx : s.descrs[g]? with
  | none =>
      exact absurd ((List.getElem?_eq_none_iff).mp hx) (by omega)
  | some d => simp

theorem descrAt_appendFile_ne (s : Store) (g g2 : Nat) (df : DandiFile)
    (h : g2 ≠ g) :
    descrAt (s.appendFile g df) g2 = descrAt s g2 := by
  simp [Store.appendFile, descrAt, List.getD_eq_getElem?_getD,
    updAt_get_ne g2 h]

end StoreLemmas

/-- C2: the classifier applies its rules in exactly this priority order: a
directory fails with an `UnknownAssetError` if empty, is tagged `ZARR` if its
extension is in the registered directory-asset extension set, and otherwise
fails with an `UnknownAssetError`; otherwise a file named
`dataset_description.json` is tagged dataset-description; otherwise a `.nwb`
extension is tagged `NWB`; otherwise an extension in the registered video set
is tagged `VIDEO`; otherwise the file is tagged `GENERIC`. -/
theorem classify_priority (node : Option FSNode) (nm : String) :
    (isDirNode node = true → childrenOf node = [] →
        DandiFileType.classify node nm = .error .emptyDir)
  ∧ (isDirNode node = true → childrenOf node ≠ [] →
        nameSuffix nm ∈ ZARR_EXTENSIONS →
        DandiFileType.classify node nm = .ok .ZARR)
  ∧ (isDirNode node = true → childrenOf node ≠ [] →
        nameSuffix nm ∉ ZARR_EXTENSIONS →
        DandiFileType.classify node nm
          = .error (.unrecognizedSuffix (nameSuffix nm)))
  ∧ (isDirNode node = false → nm = BIDS_DATASET_DESCRIPTION →
        DandiFileType.classify node nm = .ok .BIDS_DATASET_DESCRIPTION)
  ∧ (isDirNode node = false → nm ≠ BIDS_DATASET_DESCRIPTION →
        nameSuffix nm = ".nwb" →
        DandiFileType.classify node nm = .ok .NWB)
  ∧ (isDirNode node = false → nm ≠ BIDS_DATASET_DESCRIPTION →
        nameSuffix nm ≠ ".nwb" → nameSuffix nm ∈ VIDEO_FILE_EXTENSIONS →
        DandiFileType.classify node nm = .ok .VIDEO)
  ∧ (isDirNode node = false → nm ≠ BIDS_DATASET_DESCRIPTION →
        nameSuffix nm ≠ ".nwb" → nameSuffix nm ∉ VIDEO_FILE_EXTENSIONS →
        DandiFileType.classify node nm = .ok .GENERIC) := by
  refine ⟨?_, ?_, ?_, ?_, ?_, ?_, ?_⟩ <;>
    rcases node with _ | t <;>
    first
      | (intro h1 h2
         first
           | (intro h3 h4
              cases t <;>
                simp_all [isDirNode, childrenOf, DandiFileType.classify,
                  List.isEmpty_iff])
           | (intro h3
              cases t <;>
                simp_all [isDirNode, childrenOf, DandiFileType.classify,
                  List.isEmpty_iff])
           | (cases t <;>
                simp_all [isDirNode, childrenOf, DandiFileType.classify,
                  List.isEmpty_iff]))
      | (intro h1 h2
         first
           | (intro h3 h4
              simp_all [isDirNode, childrenOf, DandiFileType.classify])
           | (intro h3
              simp_all [isDirNode, childrenOf, DandiFileType.classify])
           | simp_all [isDirNode, childrenOf, DandiFileType.classify])

/-- Witness for C2 at concrete inputs: a nonempty `.zarr` directory is tagged
`ZARR`, and a `.nwb` file is tagged `NWB`. -/
theorem classify_priority_witness :
    DandiFileType.classify
        (some (.dir false [("a", .file false)])) "x.zarr" = .ok .ZARR
  ∧ DandiFileType.classify (some (.file false)) "y.nwb" = .ok .NWB :=
  ⟨(classify_priority (some (.dir false [("a", .file false)])) "x.zarr").2.1
      (by decide) (by simp [childrenOf]) (by decide),
   (classify_priority (some (.file false)) "y.nwb").2.2.2.2.1
      (by decide) (by decide) (by decide)⟩

/-- C3: on a `dataset_description.json` at the governing entity's own
filepath the BIDS factory returns the governing entity itself (the same
reference, with nothing allocated or appended); on a description file at a
different path it allocates a fresh plain description entity (a new
reference, carrying no back-reference field at all) and leaves the governing
entity untouched; on every other classified type it builds the BIDS-tagged
variant (`VIDEO` and `GENERIC` both becoming the shared generic-BIDS
variant), wires the weak back-reference `g`, and appends the new entity to
the governing entity's `dataset_files` exactly once, leaving every other
description entity unchanged. -/
theorem bids_factory_spec (g : Nat) (filepath : FPath) (node : Option FSNode)
    (path : String) (store : Store) (hg : g < store.descrs.length) :
    (DandiFileType.classify node (pathName filepath)
        = .ok .BIDS_DATASET_DESCRIPTION →
      (filepath = (descrAt store g).filepath →
        BIDSFileFactory g filepath node path store = .ok (.bidsDD g, store))
      ∧ (filepath ≠ (descrAt store g).filepath →
          BIDSFileFactory g filepath node path store
            = .ok (.bidsDD store.descrs.length,
                   ⟨store.descrs ++ [⟨filepath, path, []⟩]⟩)
          ∧ store.descrs.length ≠ g
          ∧ descrAt ⟨store.descrs ++ [⟨filepath, path, []⟩]⟩ g
              = descrAt store g))
  ∧ (∀ ft, DandiFileType.classify node (pathName filepath) = .ok ft →
       ft ≠ .BIDS_DATASET_DESCRIPTION →
       ∃ df s2, BIDSFileFactory g filepath node path store = .ok (df, s2)
         ∧ df.bidsRef = some g
         ∧ df = (match ft with
                 | .NWB => DandiFile.nwbBIDS filepath path g
                 | .ZARR => DandiFile.zarrBIDS filepath path g
                 | _ => DandiFile.genericBIDS filepath path g)
         ∧ (descrAt s2 g).dataset_files
             = (descrAt store g).dataset_files ++ [df]
         ∧ (descrAt s2 g).filepath = (descrAt store g).filepath
         ∧ (descrAt s2 g).path = (descrAt store g).path
         ∧ (∀ g2, g2 ≠ g → descrAt s2 g2 = descrAt store g2)) := by
  constructor
  · intro hcl
    constructor
    · intro hfp
      simp only [BIDSFileFactory, hcl]
      simp [hfp]
    · intro hfp
      refine ⟨?_, by omega, descrAt_push_lt _ hg⟩
      simp only [BIDSFileFactory, hcl]
      simp [hfp, Store.alloc]
  · intro ft hcl hne
    cases ft with
    | NWB =>
        exact ⟨DandiFile.nwbBIDS filepath path g,
          store.appendFile g (DandiFile.nwbBIDS filepath path g),
          by simp [BIDSFileFactory, hcl], rfl, rfl,
          by simp [descrAt_appendFile_self _ hg],
          by simp [descrAt_appendFile_self _ hg],
          by simp [descrAt_appendFile_self _ hg],
          fun g2 h2 => descrAt_appendFile_ne _ _ _ _ h2⟩
    | ZARR =>
        exact ⟨DandiFile.zarrBIDS filepath path g,
          store.appendFile g (DandiFile.zarrBIDS filepath path g),
          by simp [BIDSFileFactory, hcl], rfl, rfl,
          by simp [descrAt_appendFile_self _ hg],
          by simp [descrAt_appendFile_self _ hg],
          by simp [descrAt_appendFile_self _ hg],
          fun g2 h2 => descrAt_appendFile_ne _ _ _ _ h2⟩
    | VIDEO =>
        exact ⟨DandiFile.genericBIDS filepath path g,
          store.appendFile g (DandiFile.genericBIDS filepath path g),
          by simp [BIDSFileFactory, hcl], rfl, rfl,
          by simp [descrAt_appendFile_self _ hg],
          by simp [descrAt_appendFile_self _ hg],
          by simp [descrAt_appendFile_self _ hg],
          fun g2 h2 => descrAt_appendFile_ne _ _ _ _ h2⟩
    | GENERIC =>
        exact ⟨DandiFile.genericBIDS filepath path g,
          store.appendFile g (DandiFile.genericBIDS filepath path g),
          by simp [BIDSFileFactory, hcl], rfl, rfl,
          by simp [descrAt_appendFile_self _ hg],
          by simp [descrAt_appendFile_self _ hg],
          by simp [descrAt_appendFile_self _ hg],
          fun g2 h2 => descrAt_appendFile_ne _ _ _ _ h2⟩
    | BIDS_DATASET_DESCRIPTION => exact absurd rfl hne

/-- Witness for C3: the identity case at a concrete store. -/
theorem bids_factory_spec_witness :
    BIDSFileFactory 0 ["ds", "dataset_description.json"] (some (.file false))
        "dataset_description.json"
        ⟨[⟨["ds", "dataset_description.json"], "dataset_description.json",
           []⟩]⟩
      = .ok (.bidsDD 0,
          ⟨[⟨["ds", "dataset_description.json"], "dataset_description.json",
             []⟩]⟩) :=
  ((bids_factory_spec 0 ["ds", "dataset_description.json"]
      (some (.file false)) "dataset_description.json"
      ⟨[⟨["ds", "dataset_description.json"], "dataset_description.json", []⟩]⟩
      (by decide)).1 rfl).1 (by decide)

theorem relTo_isSome {p root : FPath} :
    (relTo p root).isSome = true ↔ root <+: p := by
  by_cases h : root <+: p <;> simp [relTo, h]

/-- C4: with a declared dataset root, a starting path that is not equal to or
under the root makes the traversal fail with the outside-root `ValueError`
immediately: no entity is yielded for any starting path. -/
theorem find_outside_root (fs : FSNode) (paths : List FPath) (root : FPath)
    (allow_all include_metadata : Bool)
    (h : ∃ p ∈ paths, ¬ root <+: p) :
    find_dandi_files fs paths (some root) allow_all include_metadata
      = some ⟨[], emptyStore, some .outsideRoot⟩ := by
  obtain ⟨p, hp, hnp⟩ := h
  have hall : paths.all (fun q => (relTo q root).isSome) = false := by
    rcases hb : paths.all (fun q => (relTo q root).isSome) with _ | _
    · rfl
    · rw [List.all_eq_true] at hb
      exact absurd (relTo_isSome.mp (hb p hp)) hnp
  simp [find_dandi_files, hall]

/-- Witness for C4: a concrete starting path outside the root. -/
theorem find_outside_root_witness :
    find_dandi_files (.dir false []) [["other", "f.txt"]] (some ["ds"])
        false false
      = some ⟨[], emptyStore, some .outsideRoot⟩ :=
  find_outside_root (.dir false []) [["other", "f.txt"]] ["ds"] false false
    ⟨["other", "f.txt"], by simp, by decide⟩

section PosixLemmas

theorem posixJoin_cons_cons (a b : String) (r : List String) :
    posixJoin (a :: b :: r) = a ++ "/" ++ posixJoin (b :: r) := rfl

theorem slash_mem_posixJoin (a b : String) (r : List String) :
    '/' ∈ (posixJoin (a :: b :: r)).data := by
  rw [posixJoin_cons_cons]
  simp [String.data_append]

/-- A posix-joined component list equal to a slash-free string is empty or
that single component. -/
theorem posix_eq_noslash {l : List String} {s : String}
    (hs : '/' ∉ s.data) (h : posixJoin l = s) : l = [] ∨ l = [s] := by
  match l with
  | [] => exact Or.inl rfl
  | [a] =>
      rw [posixJoin] at h
      exact Or.inr (by rw [h])
  | a :: b :: r => exact absurd (h ▸ slash_mem_posixJoin a b r) hs

end PosixLemmas

/-- C9: for a filepath under a declared dataset root, a successfully
constructed entity's `path` field is exactly the root-relative POSIX join of
the remaining components and is never `"."`; a filepath equal to the root
itself fails with the invalid-path `ValueError`.  (The hypothesis `hID` says
any pre-existing governing description entity has a consistent `path`, which
holds for every entity the traversal constructs; it is only needed when the
factory returns the governing entity itself instead of constructing.) -/
theorem dandi_file_path_roundtrip (filepath : FPath) (node : Option FSNode)
    (root : FPath) (bdd : Option Nat) (store : Store)
    (hroot : root <+: filepath)
    (hID : ∀ g, bdd = some g → (descrAt store g).path
             = posixJoin ((descrAt store g).filepath.drop root.length)) :
    (∀ df s2,
        dandi_file filepath node (some root) bdd store = .ok (df, s2) →
        ∀ rp, df.relPath s2 = some rp →
          rp = posixJoin (filepath.drop root.length) ∧ rp ≠ ".")
  ∧ (filepath = root →
      dandi_file filepath node (some root) bdd store
        = .error .invalidPath) := by
  have hrel : relTo filepath root = some (filepath.drop root.length) := by
    simp [relTo, hroot]
  constructor
  · intro df s2 hok rp hrp
    by_cases hdot : posixJoin (filepath.drop root.length) = "."
    · simp [dandi_file, hrel, hdot] at hok
    · simp only [dandi_file, hrel, if_neg hdot] at hok
      by_cases hmeta :
          isFileNode node = true ∧
            posixJoin (filepath.drop root.length) = dandiset_metadata_file
      · rw [if_pos hmeta] at hok
        obtain ⟨hdf, hs2⟩ := by
          simpa using hok
        subst hdf
        simp [DandiFile.relPath] at hrp
      · rw [if_neg hmeta] at hok
        cases bdd with
        | none =>
            simp only [DandiFileFactory] at hok
            cases hcl : DandiFileType.classify node (pathName filepath) with
            | error e => rw [hcl] at hok; simp at hok
            | ok ft =>
                rw [hcl] at hok
                cases ft <;> simp at hok <;>
                  obtain ⟨hdf, hs2⟩ := hok <;> subst hdf <;> subst hs2 <;>
                  simp [DandiFile.relPath, Store.alloc, descrAt_push_self]
                    at hrp <;>
                  simp [← hrp, hdot]
        | some g =>
            simp only [BIDSFileFactory] at hok
            cases hcl : DandiFileType.classify node (pathName filepath) with
            | error e => rw [hcl] at hok; simp at hok
            | ok ft =>
                rw [hcl] at hok
                cases ft with
                | BIDS_DATASET_DESCRIPTION =>
                    by_cases hfp : filepath = (descrAt store g).filepath
                    · rw [if_pos hfp] at hok
                      obtain ⟨hdf, hs2⟩ := by simpa using hok
                      subst hdf; subst hs2
                      simp only [DandiFile.relPath, Option.some.injEq] at hrp
                      have hpath := hID g rfl
                      rw [← hfp] at hpath
                      rw [hpath] at hrp
                      exact ⟨hrp.symm, hrp ▸ hdot⟩
                    · rw [if_neg hfp] at hok
                      obtain ⟨hdf, hs2⟩ := by simpa using hok
                      subst hdf; subst hs2
                      simp [DandiFile.relPath, Store.alloc, descrAt_push_self]
                        at hrp
                      simp [← hrp, hdot]
                | NWB =>
                    obtain ⟨hdf, hs2⟩ := by simpa using hok
                    subst hdf
                    simp [DandiFile.relPath] at hrp
                    simp [← hrp, hdot]
                | ZARR =>
                    obtain ⟨hdf, hs2⟩ := by simpa using hok
                    subst hdf
                    simp [DandiFile.relPath] at hrp
                    simp [← hrp, hdot]
                | VIDEO =>
                    obtain ⟨hdf, hs2⟩ := by simpa using hok
                    subst hdf
                    simp [DandiFile.relPath] at hrp
                    simp [← hrp, hdot]
                | GENERIC =>
                    obtain ⟨hdf, hs2⟩ := by simpa using hok
                    subst hdf
                    simp [DandiFile.relPath] at hrp
                    simp [← hrp, hdot]
  · intro hfr
    subst hfr
    have hdrop : filepath.drop filepath.length = ([] : List String) :=
      List.drop_length _
    simp [dandi_file, hrel, hdrop, posixJoin]

/-- Witness for C9: a concrete `.nwb` file under the root round-trips, and
the root itself is rejected. -/
theorem dandi_file_path_roundtrip_witness :
    (posixJoin ((["ds", "sub-01", "file.nwb"] : FPath).drop 1)
        = "sub-01/file.nwb"
      ∧ "sub-01/file.nwb" ≠ ".")
  ∧ dandi_file ["ds"] (some (.file false)) (some ["ds"]) none emptyStore
      = .error .invalidPath := by
  constructor
  · exact (dandi_file_path_roundtrip ["ds", "sub-01", "file.nwb"]
        (some (.file false)) ["ds"] none emptyStore (by decide)
        (by intro g hg; cases hg)).1
      (.nwb ["ds", "sub-01", "file.nwb"] "sub-01/file.nwb") emptyStore rfl
      "sub-01/file.nwb" rfl
  · exact (dandi_file_path_roundtrip ["ds"] (some (.file false)) ["ds"] none
        emptyStore (by decide) (by intro g hg; cases hg)).2 rfl

/-- C5: when the traversal pops a file, the constructed entity is suppressed
exactly when it is the plain generic class and `allow_all` is false (a
BIDS-tagged generic asset never matches that test) or it is the
dataset-metadata entity and neither `allow_all` nor `include_metadata` is
set; every other file entity is yielded.  On the spec's scenario tree with
both flags false the traversal yields exactly the NWB asset at
`sub-01/file.nwb` and the video asset at `sub-01/video.mp4`. -/
theorem file_pop_filtering :
    (∀ (root : Option FPath) (allow_all include_metadata : Bool)
        (fuel : Nat) (p : FPath) (node : Option FSNode) (ctx : Option Nat)
        (rest : List QItem) (store s2 : Store) (df : DandiFile)
        (r : TravResult),
      ¬ startsWithDot (pathName p) = true →
      isDirNode node = false →
      dandi_file p node root ctx store = .ok (df, s2) →
      findLoop root allow_all include_metadata fuel rest s2 = some r →
      findLoop root allow_all include_metadata (fuel + 1)
          ((p, node, ctx) :: rest) store
        = some ⟨(if ((isGenericExactly df && !allow_all)
                     || (isMetadataFile df
                          && !(allow_all || include_metadata))) = true
                 then [] else [df]) ++ r.yields, r.store, r.err⟩)
  ∧ (∀ fp rp g, isGenericExactly (.genericBIDS fp rp g) = false)
  ∧ find_dandi_files scenarioTree [["ds"]] (some ["ds"]) false false
      = some ⟨[.nwb ["ds", "sub-01", "file.nwb"] "sub-01/file.nwb",
               .video ["ds", "sub-01", "video.mp4"] "sub-01/video.mp4"],
              emptyStore, none⟩ := by
  refine ⟨?_, fun fp rp g => rfl, by rfl⟩
  intro root allow_all include_metadata fuel p node ctx rest store s2 df r
    hdot hnd hdf hrec
  have hsup : suppressed allow_all include_metadata df
      = ((isGenericExactly df && !allow_all)
          || (isMetadataFile df && !(allow_all || include_metadata))) := rfl
  rw [← hsup]
  cases node with
  | none =>
      simp only [findLoop, if_neg hdot, hdf, hrec]
      by_cases hs : suppressed allow_all include_metadata df = true
      · simp [hs]
      · simp [hs]
  | some t =>
      cases t with
      | file sl =>
          simp only [findLoop, if_neg hdot, hdf, hrec]
          by_cases hs : suppressed allow_all include_metadata df = true
          · simp [hs]
          · simp [hs]
      | dir sl cs => simp [isDirNode] at hnd

/-- Witness for C5's filtering rule: a concrete `dandiset.yaml` pop is
suppressed under both flags false. -/
theorem file_pop_filtering_witness :
    findLoop (some ["ds"]) false false 2
        [(["ds", "dandiset.yaml"], some (.file false), none)] emptyStore
      = some ⟨(if ((isGenericExactly
                      (.dandisetMetadata ["ds", "dandiset.yaml"]) && !false)
                   || (isMetadataFile
                        (.dandisetMetadata ["ds", "dandiset.yaml"])
                        && !(false || false))) = true
               then []
               else [DandiFile.dandisetMetadata ["ds", "dandiset.yaml"]])
              ++ [], emptyStore, none⟩ :=
  file_pop_filtering.1 (some ["ds"]) false false 1 ["ds", "dandiset.yaml"]
    (some (.file false)) none [] emptyStore emptyStore
    (.dandisetMetadata ["ds", "dandiset.yaml"]) ⟨[], emptyStore, none⟩
    (by decide) rfl rfl rfl

theorem pathName_concat (l : FPath) (x : String) :
    pathName (l ++ [x]) = x := by
  simp [pathName, List.getLastD_concat]

/-- A posix join ending in component `x` cannot equal a slash-free string
other than `x`. -/
theorem posixJoin_append_single_ne {l : List String} {x s : String}
    (hs : '/' ∉ s.data) (hx : x ≠ s) : posixJoin (l ++ [x]) ≠ s := by
  intro h
  rcases posix_eq_noslash hs h with h0 | h1
  · simp at h0
  · cases l with
    | nil =>
        rw [List.nil_append] at h1
        exact hx (by simpa using h1)
    | cons a as =>
        have : as.length + 1 + 1 = 1 := by simpa using congrArg List.length h1
        omega

/-- C8 counterexample: in `c8Tree` the marker `w/dataset_description.json`
passes the is-regular-file-or-symbolic-link test, yet the locator started at
`w` returns neither a constructed description entity nor none: the marker is
a symbolic link to a directory, so constructing it propagates the
classifier's `UnknownAssetError`, contrary to the claim that any marker
present as a regular file or symbolic link yields a description entity. -/
theorem fbdd_symlink_counterexample :
    isFileOrSymlink
        (resolvePath (["w"] ++ [BIDS_DATASET_DESCRIPTION]) c8Tree) = true
  ∧ find_bids_dataset_description c8Tree ["w"] none emptyStore
      = .error (.unknownAsset (.unrecognizedSuffix ".json")) :=
  ⟨rfl, rfl⟩

/-- C8 (amended): the locator examines `dirpath` and each ancestor in upward
order; at a directory `d` whose marker passes the
regular-file-or-symbolic-link test it immediately returns the outcome of
constructing the marker — a fresh description entity when the marker is a
regular file and `d` is at or under the declared root (or no root is
declared), and the propagated construction error when construction fails
(e.g. a symbolic link to a directory) — otherwise it returns none when
`dandiset.yaml` passes the test at `d`, otherwise none when `d` equals the
declared root, otherwise it continues to the parent, and it returns none
once the ancestors are exhausted. -/
theorem fbdd_walk (fs : FSNode) (root : Option FPath) (store : Store)
    (d : FPath) (rest : List FPath) :
    (∀ e, isFileOrSymlink (resolvePath (d ++ [BIDS_DATASET_DESCRIPTION]) fs)
            = true →
       dandi_file (d ++ [BIDS_DATASET_DESCRIPTION])
           (resolvePath (d ++ [BIDS_DATASET_DESCRIPTION]) fs) root none store
         = .error e →
       fbddLoop fs root store (d :: rest) = .error e)
  ∧ (∀ sl, resolvePath (d ++ [BIDS_DATASET_DESCRIPTION]) fs
        = some (.file sl) →
      root = none →
      fbddLoop fs root store (d :: rest)
        = .ok (some store.descrs.length,
               ⟨store.descrs ++ [⟨d ++ [BIDS_DATASET_DESCRIPTION],
                                  BIDS_DATASET_DESCRIPTION, []⟩]⟩))
  ∧ (∀ sl rt, resolvePath (d ++ [BIDS_DATASET_DESCRIPTION]) fs
        = some (.file sl) →
      root = some rt → rt <+: d →
      fbddLoop fs root store (d :: rest)
        = .ok (some store.descrs.length,
               ⟨store.descrs ++ [⟨d ++ [BIDS_DATASET_DESCRIPTION],
                   posixJoin (d.drop rt.length ++ [BIDS_DATASET_DESCRIPTION]),
                   []⟩]⟩))
  ∧ (isFileOrSymlink (resolvePath (d ++ [BIDS_DATASET_DESCRIPTION]) fs)
        = false →
      isFileOrSymlink (resolvePath (d ++ [dandiset_metadata_file]) fs)
        = true →
      fbddLoop fs root store (d :: rest) = .ok (none, store))
  ∧ (isFileOrSymlink (resolvePath (d ++ [BIDS_DATASET_DESCRIPTION]) fs)
        = false →
      isFileOrSymlink (resolvePath (d ++ [dandiset_metadata_file]) fs)
        = false →
      root = some d →
      fbddLoop fs root store (d :: rest) = .ok (none, store))
  ∧ (isFileOrSymlink (resolvePath (d ++ [BIDS_DATASET_DESCRIPTION]) fs)
        = false →
      isFileOrSymlink (resolvePath (d ++ [dandiset_metadata_file]) fs)
        = false →
      root ≠ some d →
      fbddLoop fs root store (d :: rest) = fbddLoop fs root store rest)
  ∧ fbddLoop fs root store [] = .ok (none, store)
  ∧ (∀ dp, find_bids_dataset_description fs dp root store
        = fbddLoop fs root store (ancestors dp)) := by
  have hnm : pathName (d ++ [BIDS_DATASET_DESCRIPTION])
      = BIDS_DATASET_DESCRIPTION := pathName_concat _ _
  have hneyaml : BIDS_DATASET_DESCRIPTION ≠ dandiset_metadata_file := by
    decide
  refine ⟨?_, ?_, ?_, ?_, ?_, ?_, rfl, fun dp => rfl⟩
  · intro e hm hdf
    simp only [fbddLoop, hm, if_true, hdf]
  · intro sl hres hroot
    subst hroot
    have hdf : dandi_file (d ++ [BIDS_DATASET_DESCRIPTION])
        (some (.file sl)) none none store
        = .ok (.bidsDD store.descrs.length,
               ⟨store.descrs ++ [⟨d ++ [BIDS_DATASET_DESCRIPTION],
                                  BIDS_DATASET_DESCRIPTION, []⟩]⟩) := by
      simp [dandi_file, hnm, hneyaml, DandiFileFactory, DandiFileType.classify,
        Store.alloc, isFileNode]
    simp only [fbddLoop, hres]
    simp only [isFileOrSymlink, if_true, hdf]
  · intro sl rt hres hroot hpre
    subst hroot
    have hlen : rt.length ≤ d.length := hpre.length_le
    have hpre2 : rt <+: d ++ [BIDS_DATASET_DESCRIPTION] :=
      hpre.trans (List.prefix_append _ _)
    have hdrop : (d ++ [BIDS_DATASET_DESCRIPTION]).drop rt.length
        = d.drop rt.length ++ [BIDS_DATASET_DESCRIPTION] :=
      List.drop_append_of_le_length hlen
    have hrel : relTo (d ++ [BIDS_DATASET_DESCRIPTION]) rt
        = some (d.drop rt.length ++ [BIDS_DATASET_DESCRIPTION]) := by
      simp [relTo, hpre2, hdrop]
    have hdotcase : posixJoin (d.drop rt.length ++ [BIDS_DATASET_DESCRIPTION])
        ≠ "." :=
      posixJoin_append_single_ne (by decide) (by decide)
    have hyamlcase :
        posixJoin (d.drop rt.length ++ [BIDS_DATASET_DESCRIPTION])
          ≠ dandiset_metadata_file :=
      posixJoin_append_single_ne (by decide) (by decide)
    have hdf : dandi_file (d ++ [BIDS_DATASET_DESCRIPTION])
        (some (.file sl)) (some rt) none store
        = .ok (.bidsDD store.descrs.length,
               ⟨store.descrs ++ [⟨d ++ [BIDS_DATASET_DESCRIPTION],
                   posixJoin (d.drop rt.length ++ [BIDS_DATASET_DESCRIPTION]),
                   []⟩]⟩) := by
      simp [dandi_file, hrel, hnm, hdotcase, hyamlcase, DandiFileFactory,
        DandiFileType.classify, Store.alloc, isFileNode]
    simp only [fbddLoop, hres]
    simp only [isFileOrSymlink, if_true, hdf]
  · intro hm hy
    simp only [fbddLoop, hm, hy]
    simp
  · intro hm hy hroot
    subst hroot
    simp only [fbddLoop, hm, hy]
    simp
  · intro hm hy hroot
    simp only [fbddLoop, hm, hy]
    simp [hroot]

/-- Witness for C8's amended walk: a regular-file marker directly at the
starting directory is constructed and returned. -/
theorem fbdd_walk_witness :
    fbddLoop (.dir false [("top", .dir false
        [("dataset_description.json", .file false)])])
        none emptyStore [["top"]]
      = .ok (some 0, ⟨[⟨["top", "dataset_description.json"],
                        "dataset_description.json", []⟩]⟩) :=
  (fbdd_walk (.dir false [("top", .dir false
      [("dataset_description.json", .file false)])])
    none emptyStore ["top"] []).2.1 false rfl rfl

section StoreEvolution

theorem updAt_ge {r : Nat} {l : List DDInfo} {f : DDInfo → DDInfo}
    (h : l.length ≤ r) : updAt r f l = l := by
  induction l generalizing r with
  | nil => simp [updAt]
  | cons d ds ih =>
      cases r with
      | zero => simp at h
      | succ n => simp [updAt, ih (by simpa using Nat.le_of_succ_le_succ h)]

/-- `appendFile` only touches the `dataset_files` field. -/
theorem descrAt_appendFile_fields (s : Store) (g g2 : Nat) (df : DandiFile) :
    (descrAt (s.appendFile g df) g2).filepath = (descrAt s g2).filepath
  ∧ (descrAt (s.appendFile g df) g2).path = (descrAt s g2).path := by
  by_cases h2 : g2 = g
  · subst h2
    by_cases hg : g2 < s.descrs.length
    · rw [descrAt_appendFile_self _ hg]
      exact ⟨rfl, rfl⟩
    · have : s.appendFile g2 df = s := by
        simp [Store.appendFile, updAt_ge (Nat.le_of_not_lt hg)]
      rw [this]
      exact ⟨rfl, rfl⟩
  · rw [descrAt_appendFile_ne _ _ _ _ h2]
    exact ⟨rfl, rfl⟩

theorem appendFile_length (s : Store) (g : Nat) (df : DandiFile) :
    (s.appendFile g df).descrs.length = s.descrs.length := by
  simp [Store.appendFile, updAt_length]

theorem StoreExt.refl (s : Store) : StoreExt s s := ⟨Nat.le_refl _, by simp⟩

theorem StoreExt.trans {s1 s2 s3 : Store} (h1 : StoreExt s1 s2)
    (h2 : StoreExt s2 s3) : StoreExt s1 s3 := by
  refine ⟨Nat.le_trans h1.1 h2.1, fun g hg => ?_⟩
  have a1 := h1.2 g hg
  have a2 := h2.2 g (Nat.lt_of_lt_of_le hg h1.1)
  exact ⟨a2.1.trans a1.1, a2.2.trans a1.2⟩

theorem StoreExt.push (s : Store) (x : DDInfo) :
    StoreExt s ⟨s.descrs ++ [x]⟩ := by
  refine ⟨by simp, fun g hg => ?_⟩
  rw [descrAt_push_lt _ hg]
  exact ⟨rfl, rfl⟩

theorem StoreExt.appendFile (s : Store) (g : Nat) (df : DandiFile) :
    StoreExt s (s.appendFile g df) := by
  refine ⟨by rw [appendFile_length], fun g2 _ => ?_⟩
  exact descrAt_appendFile_fields s g g2 df

end StoreEvolution

section DandiFileSpecs

/-- Pushing a fresh entity (with an empty file list) changes nobody's
`dataset_files`. -/
theorem descrAt_push_files (s : Store) (fp : FPath) (rp : String) (g : Nat) :
    (descrAt ⟨s.descrs ++ [⟨fp, rp, []⟩]⟩ g).dataset_files
      = (descrAt s g).dataset_files := by
  by_cases hg : g < s.descrs.length
  · rw [descrAt_push_lt _ hg]
  · rcases Nat.lt_or_ge g (s.descrs.length + 1) with hgb | hgb
    · have : g = s.descrs.length := by omega
      subst this
      rw [descrAt_push_self, descrAt_ge (Nat.le_of_not_lt hg)]
      rfl
    · rw [descrAt_ge (by simpa using hgb), descrAt_ge (Nat.le_of_not_lt hg)]

/-- Everything a successful plain-factory call can do to the store and the
shapes its result can take. -/
theorem DandiFileFactory_spec {fp : FPath} {node : Option FSNode}
    {path : String} {store : Store} {df : DandiFile} {s2 : Store}
    (h : DandiFileFactory fp node path store = .ok (df, s2)) :
    StoreExt store s2
  ∧ (∀ g2, (descrAt s2 g2).dataset_files
        = (descrAt store g2).dataset_files)
  ∧ df.bidsRef = none
  ∧ (df.assetPath = fp ∨ ∃ r2, df = .bidsDD r2)
  ∧ (∀ r2, df = .bidsDD r2 → r2 = store.descrs.length
        ∧ s2 = ⟨store.descrs ++ [⟨fp, path, []⟩]⟩) := by
  rw [DandiFileFactory] at h
  cases hcl : DandiFileType.classify node (pathName fp) with
  | error e => rw [hcl] at h; simp at h
  | ok ft =>
      rw [hcl] at h
      cases ft <;> simp [Store.alloc] at h <;> obtain ⟨h1, h2⟩ := h <;>
        subst h1 <;> subst h2
      · exact ⟨StoreExt.refl _, fun g2 => rfl, rfl, Or.inl rfl,
          fun r2 hr => by cases hr⟩
      · exact ⟨StoreExt.refl _, fun g2 => rfl, rfl, Or.inl rfl,
          fun r2 hr => by cases hr⟩
      · exact ⟨StoreExt.refl _, fun g2 => rfl, rfl, Or.inl rfl,
          fun r2 hr => by cases hr⟩
      · exact ⟨StoreExt.refl _, fun g2 => rfl, rfl, Or.inl rfl,
          fun r2 hr => by cases hr⟩
      · refine ⟨StoreExt.push _ _, fun g2 => ?_, rfl,
          Or.inr ⟨_, rfl⟩, fun r2 hr => ⟨by cases hr; rfl, rfl⟩⟩
        by_cases hg2 : g2 < store.descrs.length
        · rw [descrAt_push_lt _ hg2]
        · rcases Nat.lt_or_ge g2 (store.descrs.length + 1) with hg2b | hg2b
          · have : g2 = store.descrs.length := by omega
            subst this
            rw [descrAt_push_self, descrAt_ge (Nat.le_of_not_lt hg2)]
            rfl
          · rw [descrAt_ge (by simpa using hg2b),
              descrAt_ge (Nat.le_of_not_lt hg2)]

/-- Everything a successful BIDS-factory call can do to the store and the
shapes its result can take. -/
theorem BIDSFileFactory_spec {g : Nat} {fp : FPath} {node : Option FSNode}
    {path : String} {store : Store} {df : DandiFile} {s2 : Store}
    (h : BIDSFileFactory g fp node path store = .ok (df, s2)) :
    StoreExt store s2
  ∧ (∀ g2, df.bidsRef = some g2 → g2 = g ∧ df.assetPath = fp)
  ∧ (∀ g2, g2 < store.descrs.length →
      (descrAt s2 g2).dataset_files
        = (descrAt store g2).dataset_files
          ++ (if df.bidsRef = some g2 then [df] else []))
  ∧ (∀ g2, store.descrs.length ≤ g2 →
      (descrAt s2 g2).dataset_files = (descrAt store g2).dataset_files)
  ∧ (∀ r2, df = .bidsDD r2 →
       (r2 = g ∧ s2 = store ∧ fp = (descrAt store g).filepath)
       ∨ (r2 = store.descrs.length
           ∧ s2 = ⟨store.descrs ++ [⟨fp, path, []⟩]⟩)) := by
  rw [BIDSFileFactory] at h
  cases hcl : DandiFileType.classify node (pathName fp) with
  | error e => rw [hcl] at h; simp at h
  | ok ft =>
      rw [hcl] at h
      cases ft with
      | BIDS_DATASET_DESCRIPTION =>
          by_cases hfp : fp = (descrAt store g).filepath
          · rw [if_pos hfp] at h
            obtain ⟨h1, h2⟩ := by simpa using h
            subst h1; subst h2
            refine ⟨StoreExt.refl _, ?_, ?_, ?_, ?_⟩
            · intro g2 hg2
              simp [DandiFile.bidsRef] at hg2
            · intro g2 _
              simp [DandiFile.bidsRef]
            · intro g2 _
              rfl
            · intro r2 hr
              cases hr
              exact Or.inl ⟨rfl, rfl, hfp⟩
          · rw [if_neg hfp] at h
            obtain ⟨h1, h2⟩ := by simpa [Store.alloc] using h
            subst h1; subst h2
            refine ⟨StoreExt.push _ _, ?_, ?_, ?_, ?_⟩
            · intro g2 hg2
              simp [DandiFile.bidsRef] at hg2
            · intro g2 hg2
              simp [DandiFile.bidsRef, descrAt_push_lt _ hg2]
            · intro g2 _
              exact descrAt_push_files _ _ _ _
            · intro r2 hr
              cases hr
              exact Or.inr ⟨rfl, rfl⟩
      | NWB =>
          obtain ⟨h1, h2⟩ := by simpa using h
          subst h1; subst h2
          refine ⟨StoreExt.appendFile _ _ _, ?_, ?_, ?_, ?_⟩
          · intro g2 hg2
            refine ⟨?_, rfl⟩
            simpa [DandiFile.bidsRef] using hg2.symm
          · intro g2 hg2
            by_cases hgg : g = g2
            · subst hgg
              simp [DandiFile.bidsRef, descrAt_appendFile_self _ hg2]
            · rw [descrAt_appendFile_ne _ _ _ _ (fun hx => hgg hx.symm)]
              simp [DandiFile.bidsRef, fun hx : g = g2 => hgg hx]
          · intro g2 hg2
            rw [descrAt_ge (by rw [appendFile_length]; exact hg2),
              descrAt_ge hg2]
          · intro r2 hr
            cases hr
      | ZARR =>
          obtain ⟨h1, h2⟩ := by simpa using h
          subst h1; subst h2
          refine ⟨StoreExt.appendFile _ _ _, ?_, ?_, ?_, ?_⟩
          · intro g2 hg2
            refine ⟨?_, rfl⟩
            simpa [DandiFile.bidsRef] using hg2.symm
          · intro g2 hg2
            by_cases hgg : g = g2
            · subst hgg
              simp [DandiFile.bidsRef, descrAt_appendFile_self _ hg2]
            · rw [descrAt_appendFile_ne _ _ _ _ (fun hx => hgg hx.symm)]
              simp [DandiFile.bidsRef, fun hx : g = g2 => hgg hx]
          · intro g2 hg2
            rw [descrAt_ge (by rw [appendFile_length]; exact hg2),
              descrAt_ge hg2]
          · intro r2 hr
            cases hr
      | VIDEO =>
          obtain ⟨h1, h2⟩ := by simpa using h
          subst h1; subst h2
          refine ⟨StoreExt.appendFile _ _ _, ?_, ?_, ?_, ?_⟩
          · intro g2 hg2
            refine ⟨?_, rfl⟩
            simpa [DandiFile.bidsRef] using hg2.symm
          · intro g2 hg2
            by_cases hgg : g = g2
            · subst hgg
              simp [DandiFile.bidsRef, descrAt_appendFile_self _ hg2]
            · rw [descrAt_appendFile_ne _ _ _ _ (fun hx => hgg hx.symm)]
              simp [DandiFile.bidsRef, fun hx : g = g2 => hgg hx]
          · intro g2 hg2
            rw [descrAt_ge (by rw [appendFile_length]; exact hg2),
              descrAt_ge hg2]
          · intro r2 hr
            cases hr
      | GENERIC =>
          obtain ⟨h1, h2⟩ := by simpa using h
          subst h1; subst h2
          refine ⟨StoreExt.appendFile _ _ _, ?_, ?_, ?_, ?_⟩
          · intro g2 hg2
            refine ⟨?_, rfl⟩
            simpa [DandiFile.bidsRef] using hg2.symm
          · intro g2 hg2
            by_cases hgg : g = g2
            · subst hgg
              simp [DandiFile.bidsRef, descrAt_appendFile_self _ hg2]
            · rw [descrAt_appendFile_ne _ _ _ _ (fun hx => hgg hx.symm)]
              simp [DandiFile.bidsRef, fun hx : g = g2 => hgg hx]
          · intro g2 hg2
            rw [descrAt_ge (by rw [appendFile_length]; exact hg2),
              descrAt_ge hg2]
          · intro r2 hr
            cases hr

/-- Inversion of a successful `dandi_file` call: the relative path that was
computed, whether the metadata branch or a factory produced the result. -/
theorem dandi_file_ok_cases {fp : FPath} {node : Option FSNode}
    {root : Option FPath} {bdd : Option Nat} {store : Store} {df : DandiFile}
    {s2 : Store}
    (h : dandi_file fp node root bdd store = .ok (df, s2)) :
    ∃ path,
      ((root = none ∧ path = pathName fp)
        ∨ ∃ rt, root = some rt ∧ rt <+: fp
            ∧ path = posixJoin (fp.drop rt.length) ∧ path ≠ ".")
      ∧ ((df = .dandisetMetadata fp ∧ s2 = store
            ∧ isFileNode node = true ∧ path = dandiset_metadata_file)
        ∨ (¬ (isFileNode node = true ∧ path = dandiset_metadata_file)
            ∧ ((bdd = none
                  ∧ DandiFileFactory fp node path store = .ok (df, s2))
              ∨ ∃ g, bdd = some g
                  ∧ BIDSFileFactory g fp node path store = .ok (df, s2)))) := by
  cases root with
  | none =>
      simp only [dandi_file] at h
      refine ⟨pathName fp, Or.inl ⟨rfl, rfl⟩, ?_⟩
      by_cases hmeta :
          isFileNode node = true ∧ pathName fp = dandiset_metadata_file
      · rw [if_pos hmeta] at h
        obtain ⟨h1, h2⟩ := by simpa using h
        exact Or.inl ⟨h1.symm, h2.symm, hmeta⟩
      · rw [if_neg hmeta] at h
        cases bdd with
        | none => exact Or.inr ⟨hmeta, Or.inl ⟨rfl, h⟩⟩
        | some g => exact Or.inr ⟨hmeta, Or.inr ⟨g, rfl, h⟩⟩
  | some rt =>
      by_cases hpre : rt <+: fp
      · have hrel : relTo fp rt = some (fp.drop rt.length) := by
          simp [relTo, hpre]
        by_cases hdot : posixJoin (fp.drop rt.length) = "."
        · simp only [dandi_file, hrel, if_pos hdot] at h
          simp at h
        · simp only [dandi_file, hrel, if_neg hdot] at h
          refine ⟨posixJoin (fp.drop rt.length),
            Or.inr ⟨rt, rfl, hpre, rfl, hdot⟩, ?_⟩
          by_cases hmeta : isFileNode node = true ∧
              posixJoin (fp.drop rt.length) = dandiset_metadata_file
          · rw [if_pos hmeta] at h
            obtain ⟨h1, h2⟩ := by simpa using h
            exact Or.inl ⟨h1.symm, h2.symm, hmeta⟩
          · rw [if_neg hmeta] at h
            cases bdd with
            | none => exact Or.inr ⟨hmeta, Or.inl ⟨rfl, h⟩⟩
            | some g => exact Or.inr ⟨hmeta, Or.inr ⟨g, rfl, h⟩⟩
      · have hrel : relTo fp rt = none := by simp [relTo, hpre]
        simp only [dandi_file, hrel] at h
        simp at h

/-- A propagated `UnknownAssetError` out of `dandi_file` always comes from
the classifier. -/
theorem dandi_file_unknownAsset_inv {fp : FPath} {node : Option FSNode}
    {root : Option FPath} {bdd : Option Nat} {store : Store}
    {e : UnknownAssetError}
    (h : dandi_file fp node root bdd store = .error (.unknownAsset e)) :
    DandiFileType.classify node (pathName fp) = .error e := by
  have hfac : ∀ (path : String),
      (if isFileNode node ∧ path = dandiset_metadata_file then
          Except.ok (DandiFile.dandisetMetadata fp, store)
        else
          match bdd with
          | none => DandiFileFactory fp node path store
          | some g => BIDSFileFactory g fp node path store)
        = .error (.unknownAsset e) →
      DandiFileType.classify node (pathName fp) = .error e := by
    intro path hh
    by_cases hmeta : isFileNode node = true ∧ path = dandiset_metadata_file
    · rw [if_pos hmeta] at hh
      simp at hh
    · rw [if_neg hmeta] at hh
      cases bdd with
      | none =>
          simp only [DandiFileFactory] at hh
          cases hcl : DandiFileType.classify node (pathName fp) with
          | error e2 =>
              rw [hcl] at hh
              simp at hh
              rw [hh]
          | ok ft => rw [hcl] at hh; cases ft <;> simp [Store.alloc] at hh
      | some g =>
          simp only [BIDSFileFactory] at hh
          cases hcl : DandiFileType.classify node (pathName fp) with
          | error e2 =>
              rw [hcl] at hh
              simp at hh
              rw [hh]
          | ok ft =>
              rw [hcl] at hh
              cases ft with
              | BIDS_DATASET_DESCRIPTION =>
                  by_cases hfp : fp = (descrAt store g).filepath
                  · rw [if_pos hfp] at hh; simp at hh
                  · rw [if_neg hfp] at hh; simp [Store.alloc] at hh
              | NWB => simp at hh
              | ZARR => simp at hh
              | VIDEO => simp at hh
              | GENERIC => simp at hh
  cases root with
  | none =>
      simp only [dandi_file] at h
      exact hfac _ h
  | some rt =>
      cases hrel : relTo fp rt with
      | none =>
          simp only [dandi_file, hrel] at h
          simp at h
      | some rel =>
          by_cases hdot : posixJoin rel = "."
          · simp only [dandi_file, hrel, if_pos hdot] at h
            simp at h
          · simp only [dandi_file, hrel, if_neg hdot] at h
            exact hfac _ h

/-- A successful `dandi_file` call only grows the store and never rewrites
an existing entity's identity fields. -/
theorem dandi_file_ext {fp : FPath} {node : Option FSNode}
    {root : Option FPath} {bdd : Option Nat} {store : Store} {df : DandiFile}
    {s2 : Store}
    (h : dandi_file fp node root bdd store = .ok (df, s2)) :
    StoreExt store s2 := by
  obtain ⟨path, _, hcase⟩ := dandi_file_ok_cases h
  rcases hcase with ⟨_, h2, _⟩ | ⟨_, ⟨_, hfac⟩ | ⟨g, _, hfac⟩⟩
  · subst h2; exact StoreExt.refl _
  · exact (DandiFileFactory_spec hfac).1
  · exact (BIDSFileFactory_spec hfac).1

/-- With no BIDS context, a `dandi_file` call that returns a description
entity has freshly allocated it for exactly this filepath. -/
theorem dandi_file_bidsDD_none_inv {fp : FPath} {node : Option FSNode}
    {root : Option FPath} {store : Store} {r : Nat} {s2 : Store}
    (h : dandi_file fp node root none store = .ok (.bidsDD r, s2)) :
    r = store.descrs.length
  ∧ ∃ rp, s2 = ⟨store.descrs ++ [⟨fp, rp, []⟩]⟩ := by
  obtain ⟨path, _, hcase⟩ := dandi_file_ok_cases h
  rcases hcase with ⟨hdf, _⟩ | ⟨_, ⟨_, hfac⟩ | ⟨g, hg, _⟩⟩
  · cases hdf
  · have hs := (DandiFileFactory_spec hfac).2.2.2.2 r rfl
    exact ⟨hs.1, path, hs.2⟩
  · cases hg

/-- What a successful context-update step (`loadDD`) did: either there was
no description file among the children and nothing changed, or a fresh
description entity for `p/dataset_description.json` was allocated and became
the context. -/
theorem loadDD_ok_spec {p : FPath} {cs : List (String × FSNode)}
    {root : Option FPath} {old : Option Nat} {store : Store}
    {dd2 : Option Nat} {s2 : Store}
    (h : loadDD p cs root old store = .ok (dd2, s2)) :
    (lookupChild cs BIDS_DATASET_DESCRIPTION = none ∧ dd2 = old ∧ s2 = store)
  ∨ (∃ dn rp, lookupChild cs BIDS_DATASET_DESCRIPTION = some dn
      ∧ dd2 = some store.descrs.length
      ∧ s2 = ⟨store.descrs
          ++ [⟨p ++ [BIDS_DATASET_DESCRIPTION], rp, []⟩]⟩) := by
  cases hl : lookupChild cs BIDS_DATASET_DESCRIPTION with
  | none =>
      simp only [loadDD, hl] at h
      simp at h
      exact Or.inl ⟨rfl, h.1.symm, h.2.symm⟩
  | some dn =>
      cases hdf : dandi_file (p ++ [BIDS_DATASET_DESCRIPTION]) (some dn) root
          none store with
      | error e =>
          simp only [loadDD, hl, hdf] at h
          simp at h
      | ok pr =>
          obtain ⟨df2, s3⟩ := pr
          simp only [loadDD, hl, hdf] at h
          cases df2 <;> simp at h
          obtain ⟨h1, h2⟩ := h
          subst h1; subst h2
          rename_i r2
          obtain ⟨hr2, rp, hs3⟩ := dandi_file_bidsDD_none_inv hdf
          subst hr2
          exact Or.inr ⟨dn, rp, rfl, rfl, hs3⟩

end DandiFileSpecs

section StepCases

/-- The nine possible behaviors of one iteration of the traversal loop's
body, with the facts that select each. -/
theorem findLoop_cons_cases (root : Option FPath) (a i : Bool) (fuel : Nat)
    (p : FPath) (node : Option FSNode) (ctx : Option Nat) (rest : List QItem)
    (store : Store) :
    (findLoop root a i (fuel + 1) ((p, node, ctx) :: rest) store
        = findLoop root a i fuel rest store
      ∧ (startsWithDot (pathName p) = true
          ∨ (∃ cs, node = some (.dir true cs))
          ∨ (∃ cs, node = some (.dir false cs) ∧ root ≠ some p ∧ cs = [])))
  ∨ (∃ cs dd2 s2, startsWithDot (pathName p) = false
      ∧ node = some (.dir false cs) ∧ root = some p
      ∧ loadDD p cs root ctx store = .ok (dd2, s2)
      ∧ findLoop root a i (fuel + 1) ((p, node, ctx) :: rest) store
          = findLoop root a i fuel (rest ++ childItems p cs dd2) s2)
  ∨ (∃ cs e, startsWithDot (pathName p) = false
      ∧ node = some (.dir false cs) ∧ root = some p
      ∧ loadDD p cs root ctx store = .error e
      ∧ findLoop root a i (fuel + 1) ((p, node, ctx) :: rest) store
          = some ⟨[], store, some e⟩)
  ∨ (∃ cs df s2, startsWithDot (pathName p) = false
      ∧ node = some (.dir false cs) ∧ root ≠ some p ∧ cs ≠ []
      ∧ dandi_file p node root ctx store = .ok (df, s2)
      ∧ findLoop root a i (fuel + 1) ((p, node, ctx) :: rest) store
          = Option.map (fun r => ⟨df :: r.yields, r.store, r.err⟩)
              (findLoop root a i fuel rest s2))
  ∨ (∃ cs e dd2 s2, startsWithDot (pathName p) = false
      ∧ node = some (.dir false cs) ∧ root ≠ some p ∧ cs ≠ []
      ∧ dandi_file p node root ctx store = .error (.unknownAsset e)
      ∧ loadDD p cs root ctx store = .ok (dd2, s2)
      ∧ findLoop root a i (fuel + 1) ((p, node, ctx) :: rest) store
          = findLoop root a i fuel (rest ++ childItems p cs dd2) s2)
  ∨ (∃ cs e e2, startsWithDot (pathName p) = false
      ∧ node = some (.dir false cs) ∧ root ≠ some p ∧ cs ≠ []
      ∧ dandi_file p node root ctx store = .error (.unknownAsset e)
      ∧ loadDD p cs root ctx store = .error e2
      ∧ findLoop root a i (fuel + 1) ((p, node, ctx) :: rest) store
          = some ⟨[], store, some e2⟩)
  ∨ (∃ cs e, startsWithDot (pathName p) = false
      ∧ node = some (.dir false cs) ∧ root ≠ some p ∧ cs ≠ []
      ∧ dandi_file p node root ctx store = .error e
      ∧ (∀ e0, e ≠ .unknownAsset e0)
      ∧ findLoop root a i (fuel + 1) ((p, node, ctx) :: rest) store
          = some ⟨[], store, some e⟩)
  ∨ (∃ df s2, startsWithDot (pathName p) = false
      ∧ isDirNode node = false
      ∧ dandi_file p node root ctx store = .ok (df, s2)
      ∧ findLoop root a i (fuel + 1) ((p, node, ctx) :: rest) store
          = Option.map (fun r => if suppressed a i df = true then r
                else ⟨df :: r.yields, r.store, r.err⟩)
              (findLoop root a i fuel rest s2))
  ∨ (∃ e, startsWithDot (pathName p) = false
      ∧ isDirNode node = false
      ∧ dandi_file p node root ctx store = .error e
      ∧ findLoop root a i (fuel + 1) ((p, node, ctx) :: rest) store
          = some ⟨[], store, some e⟩) := by
  by_cases hdot : startsWithDot (pathName p) = true
  · exact Or.inl ⟨by simp only [findLoop, if_pos hdot], Or.inl hdot⟩
  · have hdot2 : startsWithDot (pathName p) = false := by
      simpa using hdot
    cases node with
    | none =>
        cases hdf : dandi_file p none root ctx store with
        | error e =>
            refine Or.inr (Or.inr (Or.inr (Or.inr (Or.inr (Or.inr (Or.inr
              (Or.inr ⟨e, hdot2, rfl, rfl, ?_⟩)))))))
            simp only [findLoop, if_neg hdot, hdf]
        | ok pr =>
            obtain ⟨df, s2⟩ := pr
            refine Or.inr (Or.inr (Or.inr (Or.inr (Or.inr (Or.inr (Or.inr
              (Or.inl ⟨df, s2, hdot2, rfl, rfl, ?_⟩)))))))
            simp only [findLoop, if_neg hdot, hdf]
            cases hrec : findLoop root a i fuel rest s2 with
            | none => simp
            | some r =>
                by_cases hs : suppressed a i df = true <;> simp [hs]
    | some t =>
        cases t with
        | file sl =>
            cases hdf : dandi_file p (some (.file sl)) root ctx store with
            | error e =>
                refine Or.inr (Or.inr (Or.inr (Or.inr (Or.inr (Or.inr (Or.inr
                  (Or.inr ⟨e, hdot2, rfl, rfl, ?_⟩)))))))
                simp only [findLoop, if_neg hdot, hdf]
            | ok pr =>
                obtain ⟨df, s2⟩ := pr
                refine Or.inr (Or.inr (Or.inr (Or.inr (Or.inr (Or.inr (Or.inr
                  (Or.inl ⟨df, s2, hdot2, rfl, rfl, ?_⟩)))))))
                simp only [findLoop, if_neg hdot, hdf]
                cases hrec : findLoop root a i fuel rest s2 with
                | none => simp
                | some r =>
                    by_cases hs : suppressed a i df = true <;> simp [hs]
        | dir sym cs =>
            cases sym with
            | true =>
                exact Or.inl ⟨by simp only [findLoop, if_neg hdot],
                  Or.inr (Or.inl ⟨cs, rfl⟩)⟩
            | false =>
                by_cases hroot : root = some p
                · cases hld : loadDD p cs root ctx store with
                  | ok pr2 =>
                      obtain ⟨dd2, s2⟩ := pr2
                      refine Or.inr (Or.inl ⟨cs, dd2, s2, hdot2, rfl, hroot,
                        hld, ?_⟩)
                      simp only [findLoop, if_neg hdot, if_pos hroot, hld]
                  | error e =>
                      refine Or.inr (Or.inr (Or.inl ⟨cs, e, hdot2, rfl, hroot,
                        hld, ?_⟩))
                      simp only [findLoop, if_neg hdot, if_pos hroot, hld]
                · by_cases hcs : cs = []
                  · subst hcs
                    refine Or.inl ⟨?_, Or.inr (Or.inr ⟨[], rfl, hroot, rfl⟩)⟩
                    simp only [findLoop, if_neg hdot, if_neg hroot]
                    simp
                  · have hcsb : cs.isEmpty = false := by
                      simpa [List.isEmpty_iff] using hcs
                    cases hdf : dandi_file p (some (.dir false cs)) root ctx
                        store with
                    | ok pr =>
                        obtain ⟨df, s2⟩ := pr
                        refine Or.inr (Or.inr (Or.inr (Or.inl ⟨cs, df, s2,
                          hdot2, rfl, hroot, hcs, rfl, ?_⟩)))
                        simp only [findLoop, if_neg hdot, if_neg hroot, hcsb,
                          hdf]
                        cases hrec : findLoop root a i fuel rest s2 with
                        | none => simp
                        | some r => simp
                    | error e =>
                        cases e with
                        | unknownAsset e0 =>
                            cases hld : loadDD p cs root ctx store with
                            | ok pr2 =>
                                obtain ⟨dd2, s2⟩ := pr2
                                refine Or.inr (Or.inr (Or.inr (Or.inr
                                  (Or.inl ⟨cs, e0, dd2, s2, hdot2, rfl, hroot,
                                    hcs, rfl, hld, ?_⟩))))
                                simp only [findLoop, if_neg hdot, if_neg hroot,
                                  hcsb, hdf, hld]
                                simp
                            | error e2 =>
                                refine Or.inr (Or.inr (Or.inr (Or.inr (Or.inr
                                  (Or.inl ⟨cs, e0, e2, hdot2, rfl, hroot, hcs,
                                    rfl, hld, ?_⟩)))))
                                simp only [findLoop, if_neg hdot, if_neg hroot,
                                  hcsb, hdf, hld]
                                simp
                        | invalidPath =>
                            refine Or.inr (Or.inr (Or.inr (Or.inr (Or.inr
                              (Or.inr (Or.inl ⟨cs, .invalidPath, hdot2, rfl,
                                hroot, hcs, rfl, fun e0 => by simp, ?_⟩))))))
                            simp only [findLoop, if_neg hdot, if_neg hroot,
                              hcsb, hdf]
                            simp
                        | outsideRoot =>
                            refine Or.inr (Or.inr (Or.inr (Or.inr (Or.inr
                              (Or.inr (Or.inl ⟨cs, .outsideRoot, hdot2, rfl,
                                hroot, hcs, rfl, fun e0 => by simp, ?_⟩))))))
                            simp only [findLoop, if_neg hdot, if_neg hroot,
                              hcsb, hdf]
                            simp
                        | assertFailed =>
                            refine Or.inr (Or.inr (Or.inr (Or.inr (Or.inr
                              (Or.inr (Or.inl ⟨cs, .assertFailed, hdot2, rfl,
                                hroot, hcs, rfl, fun e0 => by simp, ?_⟩))))))
                            simp only [findLoop, if_neg hdot, if_neg hroot,
                              hcsb, hdf]
                            simp

end StepCases

section FilesInvariant

theorem ctxValid_mono {store s2 : Store} {q : List QItem}
    (hext : store.descrs.length ≤ s2.descrs.length)
    (h : ctxValid store q) : ctxValid s2 q :=
  fun e he g hg => Nat.lt_of_lt_of_le (h e he g hg) hext

theorem ctxValid_tail {store : Store} {e : QItem} {rest : List QItem}
    (h : ctxValid store (e :: rest)) : ctxValid store rest :=
  fun x hx => h x (List.mem_cons_of_mem _ hx)

theorem ctxValid_append {store : Store} {q1 q2 : List QItem}
    (h1 : ctxValid store q1) (h2 : ctxValid store q2) :
    ctxValid store (q1 ++ q2) := by
  intro e he
  rcases List.mem_append.mp he with hm | hm
  · exact h1 e hm
  · exact h2 e hm

theorem ctxValid_childItems {store : Store} {p : FPath}
    {cs : List (String × FSNode)} {dd : Option Nat}
    (h : ∀ g, dd = some g → g < store.descrs.length) :
    ctxValid store (childItems p cs dd) := by
  intro e he g hg
  simp only [childItems, List.mem_map] at he
  obtain ⟨cn, _, hcne⟩ := he
  subst hcne
  exact h g hg

/-- A suppressed entity is never BIDS-tagged. -/
theorem suppressed_bidsRef {a i : Bool} {df : DandiFile}
    (h : suppressed a i df = true) : df.bidsRef = none := by
  cases df <;>
    simp [suppressed, isGenericExactly, isMetadataFile, DandiFile.bidsRef]
      at h ⊢

/-- The store effect of a successful `dandi_file` call on `dataset_files`:
the constructed entity was appended to its governing entity's collection
(when it carries a back-reference) and nothing else changed. -/
theorem dandi_file_files {fp : FPath} {node : Option FSNode}
    {root : Option FPath} {bdd : Option Nat} {store : Store} {df : DandiFile}
    {s2 : Store}
    (hval : ∀ g0, bdd = some g0 → g0 < store.descrs.length)
    (h : dandi_file fp node root bdd store = .ok (df, s2)) :
    (∀ g, (descrAt s2 g).dataset_files
       = (descrAt store g).dataset_files
         ++ (if df.bidsRef = some g then [df] else []))
  ∧ (∀ g, df.bidsRef = some g → g < s2.descrs.length) := by
  obtain ⟨path, _, hcase⟩ := dandi_file_ok_cases h
  rcases hcase with ⟨hdf, hs2, _⟩ | ⟨_, ⟨_, hfac⟩ | ⟨g0, hg0, hfac⟩⟩
  · subst hdf; subst hs2
    exact ⟨fun g => by simp [DandiFile.bidsRef],
      fun g hg => by simp [DandiFile.bidsRef] at hg⟩
  · obtain ⟨_, hfiles, href, _, _⟩ := DandiFileFactory_spec hfac
    exact ⟨fun g => by simp [href, hfiles g], fun g hg => by simp [href] at hg⟩
  · obtain ⟨hext, href, hflt, hfge, _⟩ := BIDSFileFactory_spec hfac
    have hg0v : g0 < store.descrs.length := hval g0 hg0
    constructor
    · intro g
      by_cases hg : g < store.descrs.length
      · exact hflt g hg
      · rw [hfge g (Nat.le_of_not_lt hg)]
        have : df.bidsRef ≠ some g := by
          intro hr
          exact hg ((href g hr).1 ▸ hg0v)
        simp [this]
    · intro g hg
      have := (href g hg).1
      subst this
      exact Nat.lt_of_lt_of_le hg0v hext.1

/-- Master invariant of the traversal loop: the final store extends the
initial one; every governing entity's `dataset_files` grows by exactly the
BIDS-tagged yields that reference it, in yield order; and every yield's
back-reference is allocated. -/
theorem findLoop_files (root : Option FPath) (a i : Bool) :
    ∀ (fuel : Nat) (q : List QItem) (store : Store) (r : TravResult),
      findLoop root a i fuel q store = some r →
      ctxValid store q →
      StoreExt store r.store
      ∧ (∀ g, (descrAt r.store g).dataset_files
          = (descrAt store g).dataset_files
            ++ r.yields.filter (fun y => y.bidsRef == some g))
      ∧ (∀ y ∈ r.yields, ∀ g, y.bidsRef = some g →
            g < r.store.descrs.length) := by
  intro fuel
  induction fuel with
  | zero =>
      intro q store r h hctx
      simp [findLoop] at h
  | succ fuel ih =>
      intro q store r h hctx
      cases q with
      | nil =>
          simp only [findLoop] at h
          have hr : r = ⟨[], store, none⟩ := by simpa using h.symm
          subst hr
          exact ⟨StoreExt.refl _, fun g => by simp, fun y hy => by simp at hy⟩
      | cons entry rest =>
          obtain ⟨p, node, ctx⟩ := entry
          have hheadctx : ∀ g, ctx = some g → g < store.descrs.length :=
            fun g hg => hctx (p, node, ctx) (List.mem_cons_self _ _) g hg
          rcases findLoop_cons_cases root a i fuel p node ctx rest store with
            ⟨heq, _⟩
            | ⟨cs, dd2, s2, _, _, _, hld, heq⟩
            | ⟨cs, e, _, _, _, hld, heq⟩
            | ⟨cs, df, s2, _, _, _, _, hdf, heq⟩
            | ⟨cs, e, dd2, s2, _, _, _, _, hdf, hld, heq⟩
            | ⟨cs, e, e2, _, _, _, _, hdf, hld, heq⟩
            | ⟨cs, e, _, _, _, _, hdf, _, heq⟩
            | ⟨df, s2, _, _, hdf, heq⟩
            | ⟨e, _, _, hdf, heq⟩
          -- skip
          · rw [heq] at h
            exact ih rest store r h (ctxValid_tail hctx)
          -- root expansion
          · rw [heq] at h
            rcases loadDD_ok_spec hld with ⟨_, hdd, hs2⟩ | ⟨_, rp, _, hdd, hs2⟩
            · rw [hdd, hs2] at h
              exact ih _ store r h
                (ctxValid_append (ctxValid_tail hctx)
                  (ctxValid_childItems hheadctx))
            · subst hdd; subst hs2
              have hctx2 : ctxValid
                  ⟨store.descrs
                    ++ [⟨p ++ [BIDS_DATASET_DESCRIPTION], rp, []⟩]⟩
                  (rest ++ childItems p cs
                    (some store.descrs.length)) := by
                refine ctxValid_append
                  (ctxValid_mono (by simp) (ctxValid_tail hctx))
                  (ctxValid_childItems ?_)
                intro g hg
                cases hg
                simp
              obtain ⟨hext, hfiles, hrefs⟩ := ih _ _ r h hctx2
              refine ⟨(StoreExt.push _ _).trans hext, ?_, hrefs⟩
              intro g
              rw [hfiles g, descrAt_push_files]
          -- root expansion error
          · rw [heq] at h
            have hr : r = ⟨[], store, some e⟩ := by simpa using h.symm
            subst hr
            exact ⟨StoreExt.refl _, fun g => by simp, fun y hy => by simp at hy⟩
          -- directory asset yielded
          · rw [heq] at h
            cases hrec : findLoop root a i fuel rest s2 with
            | none => rw [hrec] at h; simp at h
            | some r2 =>
                rw [hrec] at h
                have hr : r = ⟨df :: r2.yields, r2.store, r2.err⟩ := by
                  simpa using h.symm
                subst hr
                have hext1 := dandi_file_ext hdf
                obtain ⟨hstep, hrefstep⟩ := dandi_file_files hheadctx hdf
                obtain ⟨hext2, hfiles, hrefs⟩ := ih rest s2 r2 hrec
                  (ctxValid_mono hext1.1 (ctxValid_tail hctx))
                refine ⟨hext1.trans hext2, ?_, ?_⟩
                · intro g
                  simp only [List.filter_cons]
                  by_cases href : df.bidsRef = some g
                  · rw [hfiles g, hstep g, if_pos href]
                    simp [href]
                  · rw [hfiles g, hstep g, if_neg href]
                    simp [href]
                · intro y hy g hg
                  rcases List.mem_cons.mp hy with hyd | hym
                  · subst hyd
                    exact Nat.lt_of_lt_of_le (hrefstep g hg) hext2.1
                  · exact hrefs y hym g hg
          -- fallback expansion
          · rw [heq] at h
            rcases loadDD_ok_spec hld with ⟨_, hdd, hs2⟩ | ⟨_, rp, _, hdd, hs2⟩
            · rw [hdd, hs2] at h
              exact ih _ store r h
                (ctxValid_append (ctxValid_tail hctx)
                  (ctxValid_childItems hheadctx))
            · subst hdd; subst hs2
              have hctx2 : ctxValid
                  ⟨store.descrs
                    ++ [⟨p ++ [BIDS_DATASET_DESCRIPTION], rp, []⟩]⟩
                  (rest ++ childItems p cs
                    (some store.descrs.length)) := by
                refine ctxValid_append
                  (ctxValid_mono (by simp) (ctxValid_tail hctx))
                  (ctxValid_childItems ?_)
                intro g hg
                cases hg
                simp
              obtain ⟨hext, hfiles, hrefs⟩ := ih _ _ r h hctx2
              refine ⟨(StoreExt.push _ _).trans hext, ?_, hrefs⟩
              intro g
              rw [hfiles g, descrAt_push_files]
          -- fallback expansion error
          · rw [heq] at h
            have hr : r = ⟨[], store, some e2⟩ := by simpa using h.symm
            subst hr
            exact ⟨StoreExt.refl _, fun g => by simp, fun y hy => by simp at hy⟩
          -- other error at a directory
          · rw [heq] at h
            have hr : r = ⟨[], store, some e⟩ := by simpa using h.symm
            subst hr
            exact ⟨StoreExt.refl _, fun g => by simp, fun y hy => by simp at hy⟩
          -- file classified
          · rw [heq] at h
            cases hrec : findLoop root a i fuel rest s2 with
            | none => rw [hrec] at h; simp at h
            | some r2 =>
                rw [hrec] at h
                have hr : r = if suppressed a i df = true then r2
                    else ⟨df :: r2.yields, r2.store, r2.err⟩ := by
                  simpa using h.symm
                have hext1 := dandi_file_ext hdf
                obtain ⟨hstep, hrefstep⟩ := dandi_file_files hheadctx hdf
                obtain ⟨hext2, hfiles, hrefs⟩ := ih rest s2 r2 hrec
                  (ctxValid_mono hext1.1 (ctxValid_tail hctx))
                by_cases hs : suppressed a i df = true
                · rw [if_pos hs] at hr
                  subst hr
                  have hrefnone := suppressed_bidsRef hs
                  refine ⟨hext1.trans hext2, ?_, hrefs⟩
                  intro g
                  rw [hfiles g, hstep g]
                  simp [hrefnone]
                · rw [if_neg hs] at hr
                  subst hr
                  refine ⟨hext1.trans hext2, ?_, ?_⟩
                  · intro g
                    simp only [List.filter_cons]
                    by_cases href : df.bidsRef = some g
                    · rw [hfiles g, hstep g, if_pos href]
                      simp [href]
                    · rw [hfiles g, hstep g, if_neg href]
                      simp [href]
                  · intro y hy g hg
                    rcases List.mem_cons.mp hy with hyd | hym
                    · subst hyd
                      exact Nat.lt_of_lt_of_le (hrefstep g hg) hext2.1
                    · exact hrefs y hym g hg
          -- file construction error
          · rw [heq] at h
            have hr : r = ⟨[], store, some e⟩ := by simpa using h.symm
            subst hr
            exact ⟨StoreExt.refl _, fun g => by simp, fun y hy => by simp at hy⟩

end FilesInvariant

section MarkerYield

theorem pathName_append_ne {a b : FPath} (h : b ≠ []) :
    pathName (a ++ b) = pathName b := by
  simp only [pathName, List.getLastD_eq_getLast?, List.getLast?_append]
  cases hb : b.getLast? with
  | none => exact absurd (List.getLast?_eq_none_iff.mp hb) h
  | some x => simp

/-- A nonempty relative path ending in `dataset_description.json` joins to
neither `"."` nor `dandiset.yaml`. -/
theorem posix_last_bids {rel : List String} (hne : rel ≠ [])
    (hlast : pathName rel = BIDS_DATASET_DESCRIPTION) :
    posixJoin rel ≠ "." ∧ posixJoin rel ≠ dandiset_metadata_file := by
  obtain ⟨l, x, hlx⟩ : ∃ l x, rel = l ++ [x] := by
    refine ⟨rel.dropLast, rel.getLast hne, ?_⟩
    rw [List.dropLast_append_getLast hne]
  subst hlx
  have hx : x = BIDS_DATASET_DESCRIPTION := by
    rw [pathName_append_ne (by simp)] at hlast
    simpa [pathName] using hlast
  subst hx
  exact ⟨posixJoin_append_single_ne (by decide) (by decide),
    posixJoin_append_single_ne (by decide) (by decide)⟩

/-- If the queue holds an entry for a regular file named
`dataset_description.json` whose context is the description entity with that
very filepath, and the traversal finishes without error, then that identical
entity is eventually yielded. -/
theorem findLoop_marker_mem (root : FPath) (a i : Bool) :
    ∀ (fuel : Nat) (q : List QItem) (store : Store) (r : TravResult),
      findLoop (some root) a i fuel q store = some r →
      r.err = none →
      ∀ (mp : FPath) (sl : Bool) (g : Nat),
        (mp, some (.file sl), some g) ∈ q →
        startsWithDot (pathName mp) = false →
        pathName mp = BIDS_DATASET_DESCRIPTION →
        g < store.descrs.length →
        (descrAt store g).filepath = mp →
        DandiFile.bidsDD g ∈ r.yields := by
  intro fuel
  induction fuel with
  | zero =>
      intro q store r h
      simp [findLoop] at h
  | succ fuel ih =>
      intro q store r h herr mp sl g hmem hdotm hnamem hglt hgfp
      cases q with
      | nil => simp at hmem
      | cons entry rest =>
          obtain ⟨p, node, ctx⟩ := entry
          rcases List.mem_cons.mp hmem with hhead | htail
          · -- the marker entry is at the head of the queue
            simp only [Prod.mk.injEq] at hhead
            obtain ⟨hp, hnode, hctx⟩ := hhead
            subst hp
            rcases findLoop_cons_cases (some root) a i fuel mp node ctx rest
                store with
              ⟨heq, hwhy⟩
              | ⟨cs, dd2, s2, _, hnd, _, hld, heq⟩
              | ⟨cs, e, _, hnd, _, hld, heq⟩
              | ⟨cs, df, s2, _, hnd, _, _, hdf, heq⟩
              | ⟨cs, e, dd2, s2, _, hnd, _, _, hdf, hld, heq⟩
              | ⟨cs, e, e2, _, hnd, _, _, hdf, hld, heq⟩
              | ⟨cs, e, _, hnd, _, _, hdf, _, heq⟩
              | ⟨df, s2, hdot, hnd, hdf, heq⟩
              | ⟨e, hdot, hnd, hdf, heq⟩
            · -- skip cases are impossible for this entry
              rcases hwhy with hd | ⟨cs, hcs⟩ | ⟨cs, hcs, _, _⟩
              · rw [hdotm] at hd; cases hd
              · rw [← hnode] at hcs; simp at hcs
              · rw [← hnode] at hcs; simp at hcs
            · rw [← hnode] at hnd; simp at hnd
            · rw [← hnode] at hnd; simp at hnd
            · rw [← hnode] at hnd; simp at hnd
            · rw [← hnode] at hnd; simp at hnd
            · rw [← hnode] at hnd; simp at hnd
            · rw [← hnode] at hnd; simp at hnd
            · -- the file branch: the factory returns the governing entity
              rw [heq] at h
              cases hrec : findLoop (some root) a i fuel rest s2 with
              | none => rw [hrec] at h; simp at h
              | some r2 =>
                  rw [hrec] at h
                  have hr : r = if suppressed a i df = true then r2
                      else ⟨df :: r2.yields, r2.store, r2.err⟩ := by
                    simpa using h.symm
                  -- identify df as the governing entity itself
                  obtain ⟨path, hpath, hcase⟩ := dandi_file_ok_cases hdf
                  rcases hpath with ⟨habs, _⟩ | ⟨rt, hrt, hpre, hpathe, hdot⟩
                  · cases habs
                  · have hrt2 : rt = root := by
                      simpa using hrt.symm
                    rw [hrt2] at hpre hpathe
                    have hrelne : mp.drop root.length ≠ [] := by
                      intro h0
                      rw [h0] at hpathe
                      exact hdot (by rw [hpathe]; rfl)
                    obtain ⟨tl, htl⟩ := hpre
                    have hdropeq : mp.drop root.length = tl := by
                      rw [← htl, List.drop_left]
                    have hlastrel : pathName (mp.drop root.length)
                        = BIDS_DATASET_DESCRIPTION := by
                      have happ : root ++ mp.drop root.length = mp := by
                        rw [hdropeq, htl]
                      rw [← hnamem]
                      conv_rhs => rw [← happ]
                      rw [pathName_append_ne hrelne]
                    obtain ⟨hdcase, hycase⟩ := posix_last_bids hrelne hlastrel
                    rcases hcase with ⟨_, _, _, hmeta⟩ | ⟨_, hfac⟩
                    · rw [hpathe] at hmeta
                      exact absurd hmeta hycase
                    · rcases hfac with ⟨hbdd, _⟩ | ⟨g2, hbdd, hfac⟩
                      · rw [← hctx] at hbdd; cases hbdd
                      · have hg2 : g2 = g := by
                          rw [← hctx] at hbdd
                          simpa using hbdd.symm
                        subst hg2
                        have hcl : DandiFileType.classify node (pathName mp)
                            = .ok .BIDS_DATASET_DESCRIPTION := by
                          rw [← hnode, hnamem]
                          simp [DandiFileType.classify,
                            DandiFiles.BIDS_DATASET_DESCRIPTION]
                        have hfac2 : BIDSFileFactory g2 mp node path store
                            = .ok (.bidsDD g2, store) := by
                          rw [BIDSFileFactory.eq_def, hcl]
                          simp [hgfp]
                        rw [hfac2] at hfac
                        obtain ⟨hdf2, hs2x⟩ :
                            df = DandiFile.bidsDD g2 ∧ s2 = store := by
                          simpa using hfac.symm
                        subst hdf2
                        have hsup : suppressed a i (DandiFile.bidsDD g2)
                            = false := by
                          simp [suppressed, isGenericExactly, isMetadataFile]
                        rw [hsup] at hr
                        simp only [Bool.false_eq_true, if_false] at hr
                        subst hr
                        exact List.mem_cons_self _ _
            · -- file-construction error: the traversal ended with an error
              rw [heq] at h
              have hr : r = ⟨[], store, some e⟩ := by simpa using h.symm
              subst hr
              simp at herr
          · -- the marker entry is in the tail
            rcases findLoop_cons_cases (some root) a i fuel p node ctx rest
                store with
              ⟨heq, _⟩
              | ⟨cs, dd2, s2, _, _, _, hld, heq⟩
              | ⟨cs, e, _, _, _, hld, heq⟩
              | ⟨cs, df, s2, _, _, _, _, hdf, heq⟩
              | ⟨cs, e, dd2, s2, _, _, _, _, hdf, hld, heq⟩
              | ⟨cs, e, e2, _, _, _, _, hdf, hld, heq⟩
              | ⟨cs, e, _, _, _, _, hdf, _, heq⟩
              | ⟨df, s2, _, _, hdf, heq⟩
              | ⟨e, _, _, hdf, heq⟩
            · rw [heq] at h
              exact ih rest store r h herr mp sl g htail hdotm hnamem hglt hgfp
            · rw [heq] at h
              rcases loadDD_ok_spec hld with ⟨_, hdd, hs2⟩ | ⟨_, rp, _, hdd, hs2⟩
              · rw [hdd, hs2] at h
                exact ih _ store r h herr mp sl g
                  (List.mem_append_left _ htail) hdotm hnamem hglt hgfp
              · subst hdd; subst hs2
                refine ih _ _ r h herr mp sl g
                  (List.mem_append_left _ htail) hdotm hnamem ?_ ?_
                · simpa using Nat.lt_succ_of_lt hglt
                · rw [descrAt_push_lt _ hglt]
                  exact hgfp
            · rw [heq] at h
              have hr : r = ⟨[], store, some e⟩ := by simpa using h.symm
              subst hr
              simp at herr
            · rw [heq] at h
              cases hrec : findLoop (some root) a i fuel rest s2 with
              | none => rw [hrec] at h; simp at h
              | some r2 =>
                  rw [hrec] at h
                  have hr : r = ⟨df :: r2.yields, r2.store, r2.err⟩ := by
                    simpa using h.symm
                  subst hr
                  have hext := dandi_file_ext hdf
                  have hin := ih rest s2 r2 hrec (by simpa using herr) mp sl g
                    htail hdotm hnamem (Nat.lt_of_lt_of_le hglt hext.1)
                    (by rw [(hext.2 g hglt).1]; exact hgfp)
                  exact List.mem_cons_of_mem _ hin
            · rw [heq] at h
              rcases loadDD_ok_spec hld with ⟨_, hdd, hs2⟩ | ⟨_, rp, _, hdd, hs2⟩
              · rw [hdd, hs2] at h
                exact ih _ store r h herr mp sl g
                  (List.mem_append_left _ htail) hdotm hnamem hglt hgfp
              · subst hdd; subst hs2
                refine ih _ _ r h herr mp sl g
                  (List.mem_append_left _ htail) hdotm hnamem ?_ ?_
                · simpa using Nat.lt_succ_of_lt hglt
                · rw [descrAt_push_lt _ hglt]
                  exact hgfp
            · rw [heq] at h
              have hr : r = ⟨[], store, some e2⟩ := by simpa using h.symm
              subst hr
              simp at herr
            · rw [heq] at h
              have hr : r = ⟨[], store, some e⟩ := by simpa using h.symm
              subst hr
              simp at herr
            · rw [heq] at h
              cases hrec : findLoop (some root) a i fuel rest s2 with
              | none => rw [hrec] at h; simp at h
              | some r2 =>
                  rw [hrec] at h
                  have hr : r = if suppressed a i df = true then r2
                      else ⟨df :: r2.yields, r2.store, r2.err⟩ := by
                    simpa using h.symm
                  have hext := dandi_file_ext hdf
                  by_cases hs : suppressed a i df = true
                  · rw [if_pos hs] at hr
                    rw [hr] at herr ⊢
                    exact ih rest s2 r2 hrec herr mp sl g
                      htail hdotm hnamem (Nat.lt_of_lt_of_le hglt hext.1)
                      (by rw [(hext.2 g hglt).1]; exact hgfp)
                  · rw [if_neg hs] at hr
                    subst hr
                    have hin := ih rest s2 r2 hrec (by simpa using herr) mp sl
                      g htail hdotm hnamem (Nat.lt_of_lt_of_le hglt hext.1)
                      (by rw [(hext.2 g hglt).1]; exact hgfp)
                    exact List.mem_cons_of_mem _ hin
            · rw [heq] at h
              have hr : r = ⟨[], store, some e⟩ := by simpa using h.symm
              subst hr
              simp at herr

/-- A resolved child is listed among its resolved parent directory's
children. -/
theorem resolve_child_lookup {fs : FSNode} {p : FPath}
    {cs0 : List (String × FSNode)} {c : String} {t : FSNode}
    (hres : resolvePath p fs = some (.dir false cs0))
    (hc : resolvePath (p ++ [c]) fs = some t) :
    lookupChild cs0 c = some t := by
  rw [resolvePath_append, hres] at hc
  cases hl : lookupChild cs0 c with
  | none => simp [resolvePath, hl] at hc
  | some u =>
      simp [resolvePath, hl] at hc
      rw [hc]

/-- `dandi_file` cannot succeed on a non-file whose classification fails. -/
theorem dandi_file_classify_err {fp : FPath} {node : Option FSNode}
    {rt : Option FPath} {bdd : Option Nat} {store : Store}
    {e : UnknownAssetError} {df : DandiFile} {s2 : Store}
    (hcl : DandiFileType.classify node (pathName fp) = .error e)
    (hfn : isFileNode node = false)
    (h : dandi_file fp node rt bdd store = .ok (df, s2)) : False := by
  obtain ⟨path, _, hcase⟩ := dandi_file_ok_cases h
  rcases hcase with ⟨_, _, hfn2, _⟩ | ⟨_, ⟨_, hfac⟩ | ⟨g2, _, hfac⟩⟩
  · rw [hfn] at hfn2
    cases hfn2
  · rw [DandiFileFactory] at hfac
    rw [hcl] at hfac
    simp at hfac
  · rw [BIDSFileFactory] at hfac
    rw [hcl] at hfac
    simp at hfac

/-- Master descent lemma: if the queue holds an entry for a plain directory
that the loop will expand (the dataset root, or one failing classification)
from which a chain of fallback-expandable directories leads to a
marker-containing directory, and the run ends without error, then a
description entity whose filepath is that directory's marker is yielded. -/
theorem findLoop_descent_mem (fs : FSNode) (root : FPath) (a i : Bool) :
    ∀ (fuel : Nat) (q : List QItem) (store : Store) (r : TravResult),
      findLoop (some root) a i fuel q store = some r →
      r.err = none →
      ctxValid store q →
      ∀ (p : FPath) (cs0 : List (String × FSNode)) (ctx : Option Nat)
        (comps : List String),
        (p, some (FSNode.dir false cs0), ctx) ∈ q →
        resolvePath p fs = some (.dir false cs0) →
        startsWithDot (pathName p) = false →
        (root = p ∨ ∃ e, DandiFileType.classify (some (.dir false cs0))
            (pathName p) = .error e) →
        fallbackDescent fs p comps →
        ∃ g, DandiFile.bidsDD g ∈ r.yields
          ∧ (descrAt r.store g).filepath
              = (p ++ comps) ++ [BIDS_DATASET_DESCRIPTION] := by
  intro fuel
  induction fuel with
  | zero =>
      intro q store r h
      simp [findLoop] at h
  | succ fuel ih =>
      intro q store r h herr hcv p cs0 ctx comps hmem hres hnamep hsel hdesc
      cases q with
      | nil => simp at hmem
      | cons entry rest =>
          obtain ⟨p0, node0, ctx0⟩ := entry
          rcases List.mem_cons.mp hmem with hhead | htail
          · -- the descent's start is at the head of the queue
            simp only [Prod.mk.injEq] at hhead
            obtain ⟨hp, hnode, hctxe⟩ := hhead
            subst hp
            rcases findLoop_cons_cases (some root) a i fuel p node0 ctx0 rest
                store with
              ⟨heq, hwhy⟩
              | ⟨cs, dd2, s2, _, hnd, _, hld, heq⟩
              | ⟨cs, e0, _, hnd, _, hld, heq⟩
              | ⟨cs, df0, s2, _, hnd, hrtne, _, hdf2, heq⟩
              | ⟨cs, e0, dd2, s2, _, hnd, _, _, hdf2, hld, heq⟩
              | ⟨cs, e0, e2, _, hnd, _, _, hdf2, hld, heq⟩
              | ⟨cs, e0, _, hnd, _, _, hdf2, _, heq⟩
              | ⟨df0, s2, _, hnd, hdf2, heq⟩
              | ⟨e0, _, hnd, hdf2, heq⟩
            · -- no skip applies to this entry
              rcases hwhy with hd | ⟨cs, hcs⟩ | ⟨cs, hcs, _, hcsnil⟩
              · rw [hnamep] at hd
                cases hd
              · rw [← hnode] at hcs
                simp at hcs
              · rw [← hnode] at hcs
                have hcs0 : cs0 = cs := by simpa using hcs
                have hne : cs0 ≠ [] := by
                  cases comps with
                  | nil =>
                      obtain ⟨sl, cs', hres', hmk⟩ := hdesc
                      have hcs' : cs0 = cs' := by
                        rw [hres] at hres'
                        simpa using hres'
                      subst hcs'
                      intro h0
                      rw [h0] at hmk
                      simp [lookupChild] at hmk
                  | cons c rest2 =>
                      obtain ⟨_, ⟨cs1, hres1, _⟩, _⟩ := hdesc
                      have hlk := resolve_child_lookup hres hres1
                      intro h0
                      rw [h0] at hlk
                      simp [lookupChild] at hlk
                exact absurd (hcs0.trans hcsnil) hne
            · -- the root-expansion branch
              rw [← hnode] at hnd
              have hcseq : cs0 = cs := by simpa using hnd
              subst hcseq
              rw [heq] at h
              cases comps with
              | nil =>
                  obtain ⟨sl, cs', hres', hmk⟩ := hdesc
                  have hcs' : cs0 = cs' := by
                    rw [hres] at hres'
                    simpa using hres'
                  subst hcs'
                  rcases loadDD_ok_spec hld with ⟨hnone, _, _⟩
                    | ⟨dn, rp, hdn, hdd, hs2⟩
                  · rw [hmk] at hnone
                    cases hnone
                  · subst hdd
                    subst hs2
                    have hmemq : ((p ++ [BIDS_DATASET_DESCRIPTION],
                        some (FSNode.file sl), some store.descrs.length)
                          : QItem)
                        ∈ rest ++ childItems p cs0
                            (some store.descrs.length) := by
                      refine List.mem_append_right _ ?_
                      simp only [childItems, List.mem_map]
                      exact ⟨(BIDS_DATASET_DESCRIPTION, .file sl),
                        lookupChild_mem hmk, rfl⟩
                    have hlen : store.descrs.length
                        < (⟨store.descrs ++ [⟨p
                            ++ [BIDS_DATASET_DESCRIPTION], rp, []⟩]⟩
                              : Store).descrs.length := by
                      simp
                    have hyield := findLoop_marker_mem root a i fuel _ _ r h
                      herr (p ++ [BIDS_DATASET_DESCRIPTION]) sl
                      store.descrs.length hmemq
                      (by rw [pathName_concat]; decide) (pathName_concat _ _)
                      hlen (by rw [descrAt_push_self])
                    have hcv2 : ctxValid
                        (⟨store.descrs ++ [⟨p ++ [BIDS_DATASET_DESCRIPTION],
                          rp, []⟩]⟩ : Store)
                        (rest ++ childItems p cs0
                          (some store.descrs.length)) := by
                      refine ctxValid_append
                        (ctxValid_mono (by simp) (ctxValid_tail hcv))
                        (ctxValid_childItems ?_)
                      intro g0 hg0
                      have hg0' : g0 = store.descrs.length := by
                        simpa using hg0.symm
                      subst hg0'
                      exact hlen
                    obtain ⟨hext, -, -⟩ := findLoop_files (some root) a i
                      fuel _ _ r h hcv2
                    refine ⟨store.descrs.length, hyield, ?_⟩
                    rw [List.append_nil,
                      (hext.2 store.descrs.length hlen).1, descrAt_push_self]
              | cons c rest2 =>
                  obtain ⟨hcdot, ⟨cs1, hres1, e1, hcl1⟩, hdesc2⟩ := hdesc
                  have hlk : lookupChild cs0 c = some (.dir false cs1) :=
                    resolve_child_lookup hres hres1
                  have hmemq : ((p ++ [c], some (FSNode.dir false cs1), dd2)
                      : QItem) ∈ rest ++ childItems p cs0 dd2 := by
                    refine List.mem_append_right _ ?_
                    simp only [childItems, List.mem_map]
                    exact ⟨(c, .dir false cs1), lookupChild_mem hlk, rfl⟩
                  have hcv2 : ctxValid s2 (rest ++ childItems p cs0 dd2) := by
                    rcases loadDD_ok_spec hld with ⟨_, hdd, hs2⟩
                      | ⟨dn, rp, hdn, hdd, hs2⟩
                    · refine ctxValid_append ?_ (ctxValid_childItems ?_)
                      · rw [hs2]
                        exact ctxValid_tail hcv
                      · intro g0 hg0
                        rw [hdd] at hg0
                        rw [hs2]
                        exact hcv _ (List.mem_cons_self _ _) g0 hg0
                    · refine ctxValid_append ?_ (ctxValid_childItems ?_)
                      · refine ctxValid_mono ?_ (ctxValid_tail hcv)
                        rw [hs2]
                        simp
                      · intro g0 hg0
                        rw [hdd] at hg0
                        have hg0' : g0 = store.descrs.length := by
                          simpa using hg0.symm
                        subst hg0'
                        rw [hs2]
                        simp
                  obtain ⟨g, hy, hfp⟩ := ih _ s2 r h herr hcv2 (p ++ [c]) cs1
                    dd2 rest2 hmemq hres1
                    (by rw [pathName_concat]; exact hcdot)
                    (Or.inr ⟨e1, hcl1⟩) hdesc2
                  have hppc : (p ++ [c]) ++ rest2 = p ++ (c :: rest2) := by
                    simp
                  refine ⟨g, hy, ?_⟩
                  rw [← hppc]
                  exact hfp
            · -- root expansion failed: the run ended with an error
              rw [heq] at h
              have hr : r = ⟨[], store, some e0⟩ := by simpa using h.symm
              subst hr
              simp at herr
            · -- a directory cannot classify here
              rcases hsel with hroot2 | ⟨e3, hcl3⟩
              · exact absurd (by rw [hroot2]) hrtne
              · rw [← hnode] at hdf2
                exact (dandi_file_classify_err hcl3 rfl hdf2).elim
            · -- the fallback-expansion branch
              rw [← hnode] at hnd
              have hcseq : cs0 = cs := by simpa using hnd
              subst hcseq
              rw [heq] at h
              cases comps with
              | nil =>
                  obtain ⟨sl, cs', hres', hmk⟩ := hdesc
                  have hcs' : cs0 = cs' := by
                    rw [hres] at hres'
                    simpa using hres'
                  subst hcs'
                  rcases loadDD_ok_spec hld with ⟨hnone, _, _⟩
                    | ⟨dn, rp, hdn, hdd, hs2⟩
                  · rw [hmk] at hnone
                    cases hnone
                  · subst hdd
                    subst hs2
                    have hmemq : ((p ++ [BIDS_DATASET_DESCRIPTION],
                        some (FSNode.file sl), some store.descrs.length)
                          : QItem)
                        ∈ rest ++ childItems p cs0
                            (some store.descrs.length) := by
                      refine List.mem_append_right _ ?_
                      simp only [childItems, List.mem_map]
                      exact ⟨(BIDS_DATASET_DESCRIPTION, .file sl),
                        lookupChild_mem hmk, rfl⟩
                    have hlen : store.descrs.length
                        < (⟨store.descrs ++ [⟨p
                            ++ [BIDS_DATASET_DESCRIPTION], rp, []⟩]⟩
                              : Store).descrs.length := by
                      simp
                    have hyield := findLoop_marker_mem root a i fuel _ _ r h
                      herr (p ++ [BIDS_DATASET_DESCRIPTION]) sl
                      store.descrs.length hmemq
                      (by rw [pathName_concat]; decide) (pathName_concat _ _)
                      hlen (by rw [descrAt_push_self])
                    have hcv2 : ctxValid
                        (⟨store.descrs ++ [⟨p ++ [BIDS_DATASET_DESCRIPTION],
                          rp, []⟩]⟩ : Store)
                        (rest ++ childItems p cs0
                          (some store.descrs.length)) := by
                      refine ctxValid_append
                        (ctxValid_mono (by simp) (ctxValid_tail hcv))
                        (ctxValid_childItems ?_)
                      intro g0 hg0
                      have hg0' : g0 = store.descrs.length := by
                        simpa using hg0.symm
                      subst hg0'
                      exact hlen
                    obtain ⟨hext, -, -⟩ := findLoop_files (some root) a i
                      fuel _ _ r h hcv2
                    refine ⟨store.descrs.length, hyield, ?_⟩
                    rw [List.append_nil,
                      (hext.2 store.descrs.length hlen).1, descrAt_push_self]
              | cons c rest2 =>
                  obtain ⟨hcdot, ⟨cs1, hres1, e1, hcl1⟩, hdesc2⟩ := hdesc
                  have hlk : lookupChild cs0 c = some (.dir false cs1) :=
                    resolve_child_lookup hres hres1
                  have hmemq : ((p ++ [c], some (FSNode.dir false cs1), dd2)
                      : QItem) ∈ rest ++ childItems p cs0 dd2 := by
                    refine List.mem_append_right _ ?_
                    simp only [childItems, List.mem_map]
                    exact ⟨(c, .dir false cs1), lookupChild_mem hlk, rfl⟩
                  have hcv2 : ctxValid s2 (rest ++ childItems p cs0 dd2) := by
                    rcases loadDD_ok_spec hld with ⟨_, hdd, hs2⟩
                      | ⟨dn, rp, hdn, hdd, hs2⟩
                    · refine ctxValid_append ?_ (ctxValid_childItems ?_)
                      · rw [hs2]
                        exact ctxValid_tail hcv
                      · intro g0 hg0
                        rw [hdd] at hg0
                        rw [hs2]
                        exact hcv _ (List.mem_cons_self _ _) g0 hg0
                    · refine ctxValid_append ?_ (ctxValid_childItems ?_)
                      · refine ctxValid_mono ?_ (ctxValid_tail hcv)
                        rw [hs2]
                        simp
                      · intro g0 hg0
                        rw [hdd] at hg0
                        have hg0' : g0 = store.descrs.length := by
                          simpa using hg0.symm
                        subst hg0'
                        rw [hs2]
                        simp
                  obtain ⟨g, hy, hfp⟩ := ih _ s2 r h herr hcv2 (p ++ [c]) cs1
                    dd2 rest2 hmemq hres1
                    (by rw [pathName_concat]; exact hcdot)
                    (Or.inr ⟨e1, hcl1⟩) hdesc2
                  have hppc : (p ++ [c]) ++ rest2 = p ++ (c :: rest2) := by
                    simp
                  refine ⟨g, hy, ?_⟩
                  rw [← hppc]
                  exact hfp
            · -- fallback expansion failed: the run ended with an error
              rw [heq] at h
              have hr : r = ⟨[], store, some e2⟩ := by simpa using h.symm
              subst hr
              simp at herr
            · -- a non-fallback error ends the run
              rw [heq] at h
              have hr : r = ⟨[], store, some e0⟩ := by simpa using h.symm
              subst hr
              simp at herr
            · -- a directory is not a file entry
              rw [← hnode] at hnd
              simp [isDirNode] at hnd
            · rw [← hnode] at hnd
              simp [isDirNode] at hnd
          · -- the descent's start is in the tail
            rcases findLoop_cons_cases (some root) a i fuel p0 node0 ctx0 rest
                store with
              ⟨heq, _⟩
              | ⟨cs, dd2, s2, _, _, _, hld, heq⟩
              | ⟨cs, e0, _, _, _, hld, heq⟩
              | ⟨cs, df0, s2, _, _, _, _, hdf2, heq⟩
              | ⟨cs, e0, dd2, s2, _, _, _, _, hdf2, hld, heq⟩
              | ⟨cs, e0, e2, _, _, _, _, hdf2, hld, heq⟩
              | ⟨cs, e0, _, _, _, _, hdf2, _, heq⟩
              | ⟨df0, s2, _, _, hdf2, heq⟩
              | ⟨e0, _, _, hdf2, heq⟩
            · rw [heq] at h
              exact ih rest store r h herr (ctxValid_tail hcv) p cs0 ctx comps
                htail hres hnamep hsel hdesc
            · rw [heq] at h
              have hcv2 : ctxValid s2 (rest ++ childItems p0 cs dd2) := by
                rcases loadDD_ok_spec hld with ⟨_, hdd, hs2⟩
                  | ⟨dn, rp, hdn, hdd, hs2⟩
                · refine ctxValid_append ?_ (ctxValid_childItems ?_)
                  · rw [hs2]
                    exact ctxValid_tail hcv
                  · intro g0 hg0
                    rw [hdd] at hg0
                    rw [hs2]
                    exact hcv _ (List.mem_cons_self _ _) g0 hg0
                · refine ctxValid_append ?_ (ctxValid_childItems ?_)
                  · refine ctxValid_mono ?_ (ctxValid_tail hcv)
                    rw [hs2]
                    simp
                  · intro g0 hg0
                    rw [hdd] at hg0
                    have hg0' : g0 = store.descrs.length := by
                      simpa using hg0.symm
                    subst hg0'
                    rw [hs2]
                    simp
              exact ih _ s2 r h herr hcv2 p cs0 ctx comps
                (List.mem_append_left _ htail) hres hnamep hsel hdesc
            · rw [heq] at h
              have hr : r = ⟨[], store, some e0⟩ := by simpa using h.symm
              subst hr
              simp at herr
            · rw [heq] at h
              cases hrec : findLoop (some root) a i fuel rest s2 with
              | none => rw [hrec] at h; simp at h
              | some r2 =>
                  rw [hrec] at h
                  have hr : r = ⟨df0 :: r2.yields, r2.store, r2.err⟩ := by
                    simpa using h.symm
                  subst hr
                  have hext := dandi_file_ext hdf2
                  obtain ⟨g, hy, hfp⟩ := ih rest s2 r2 hrec
                    (by simpa using herr)
                    (ctxValid_mono hext.1 (ctxValid_tail hcv)) p cs0 ctx comps
                    htail hres hnamep hsel hdesc
                  exact ⟨g, List.mem_cons_of_mem _ hy, hfp⟩
            · rw [heq] at h
              have hcv2 : ctxValid s2 (rest ++ childItems p0 cs dd2) := by
                rcases loadDD_ok_spec hld with ⟨_, hdd, hs2⟩
                  | ⟨dn, rp, hdn, hdd, hs2⟩
                · refine ctxValid_append ?_ (ctxValid_childItems ?_)
                  · rw [hs2]
                    exact ctxValid_tail hcv
                  · intro g0 hg0
                    rw [hdd] at hg0
                    rw [hs2]
                    exact hcv _ (List.mem_cons_self _ _) g0 hg0
                · refine ctxValid_append ?_ (ctxValid_childItems ?_)
                  · refine ctxValid_mono ?_ (ctxValid_tail hcv)
                    rw [hs2]
                    simp
                  · intro g0 hg0
                    rw [hdd] at hg0
                    have hg0' : g0 = store.descrs.length := by
                      simpa using hg0.symm
                    subst hg0'
                    rw [hs2]
                    simp
              exact ih _ s2 r h herr hcv2 p cs0 ctx comps
                (List.mem_append_left _ htail) hres hnamep hsel hdesc
            · rw [heq] at h
              have hr : r = ⟨[], store, some e2⟩ := by simpa using h.symm
              subst hr
              simp at herr
            · rw [heq] at h
              have hr : r = ⟨[], store, some e0⟩ := by simpa using h.symm
              subst hr
              simp at herr
            · rw [heq] at h
              cases hrec : findLoop (some root) a i fuel rest s2 with
              | none => rw [hrec] at h; simp at h
              | some r2 =>
                  rw [hrec] at h
                  have hr : r = if suppressed a i df0 = true then r2
                      else ⟨df0 :: r2.yields, r2.store, r2.err⟩ := by
                    simpa using h.symm
                  have hext := dandi_file_ext hdf2
                  by_cases hs : suppressed a i df0 = true
                  · rw [if_pos hs] at hr
                    rw [hr] at herr ⊢
                    exact ih rest s2 r2 hrec herr
                      (ctxValid_mono hext.1 (ctxValid_tail hcv)) p cs0 ctx
                      comps htail hres hnamep hsel hdesc
                  · rw [if_neg hs] at hr
                    subst hr
                    obtain ⟨g, hy, hfp⟩ := ih rest s2 r2 hrec
                      (by simpa using herr)
                      (ctxValid_mono hext.1 (ctxValid_tail hcv)) p cs0 ctx
                      comps htail hres hnamep hsel hdesc
                    exact ⟨g, List.mem_cons_of_mem _ hy, hfp⟩
            · rw [heq] at h
              have hr : r = ⟨[], store, some e0⟩ := by simpa using h.symm
              subst hr
              simp at herr

end MarkerYield

section C10

/-- C10: whenever a traversal of the dataset root detects a
`dataset_description.json` regular file inside a traversed directory — the
dataset root itself, or a plain directory reached from the root through a
chain of directories that fail classification and are entered via the
unrecognized-directory fallback — and the traversal finishes without error,
the description entity built for that marker is itself yielded, whatever the
two suppression flags are, and the yielded reference is the identical store
object that serves as the governing context for its subtree: its
`dataset_files` is exactly the list of BIDS-tagged yields that reference it,
in discovery order. -/
theorem description_self_yield (fs : FSNode) (root : FPath) (a i : Bool)
    (comps : List String) (r : TravResult)
    (hname : startsWithDot (pathName root) = false)
    (hdir : ∃ cs, resolvePath root fs = some (.dir false cs))
    (hdesc : fallbackDescent fs root comps)
    (hrun : find_dandi_files fs [root] (some root) a i = some r)
    (herr : r.err = none) :
    ∃ g, DandiFile.bidsDD g ∈ r.yields
      ∧ (descrAt r.store g).filepath
          = (root ++ comps) ++ [BIDS_DATASET_DESCRIPTION]
      ∧ (descrAt r.store g).dataset_files
          = r.yields.filter (fun y => y.bidsRef == some g) := by
  obtain ⟨cs0, hres⟩ := hdir
  rw [find_dandi_files.eq_def] at hrun
  simp only [List.map, List.all, relTo, List.prefix_refl, if_true,
    Bool.and_true] at hrun
  rw [if_pos (by simp)] at hrun
  rw [hres] at hrun
  have hcv0 : ctxValid emptyStore
      [(root, some (FSNode.dir false cs0), (none : Option Nat))] := by
    intro e he g hg
    simp at he
    subst he
    simp at hg
  obtain ⟨g, hy, hfp⟩ := findLoop_descent_mem fs root a i _ _ _ _ hrun herr
    hcv0 root cs0 none comps (List.mem_cons_self _ _) hres hname
    (Or.inl rfl) hdesc
  obtain ⟨-, hfiles, -⟩ := findLoop_files (some root) a i _ _ _ _ hrun hcv0
  refine ⟨g, hy, hfp, ?_⟩
  rw [hfiles g]
  simp only [emptyStore, descrAt, List.getD, List.getElem?_nil,
    Option.getD_none]
  rfl

/-- Witness for C10 on a concrete tree whose marker sits in a nested plain
directory that the traversal only enters through the
unrecognized-directory fallback. -/
theorem description_self_yield_witness :
    ∃ g, DandiFile.bidsDD g ∈ c10bResult.yields
      ∧ (descrAt c10bResult.store g).filepath
          = (["ds"] ++ ["sub"]) ++ [BIDS_DATASET_DESCRIPTION]
      ∧ (descrAt c10bResult.store g).dataset_files
          = c10bResult.yields.filter (fun y => y.bidsRef == some g) :=
  description_self_yield c10bTree ["ds"] false false ["sub"] c10bResult
    (by decide) ⟨[("sub", .dir false c10bSubChildren)], rfl⟩
    ⟨by decide, ⟨c10bSubChildren, rfl, ⟨.unrecognizedSuffix "", rfl⟩⟩,
      false, c10bSubChildren, rfl, rfl⟩
    rfl rfl

end C10

section CtxInvariant

theorem strictPrefixesFrom_snoc {root p : FPath} (c : String)
    (h : root <+: p) :
    strictPrefixesFrom root (p ++ [c])
      = strictPrefixesFrom root p ++ [p] := by
  have hle : root.length ≤ p.length := h.length_le
  have hlen : (p ++ [c]).length - root.length
      = (p.length - root.length) + 1 := by
    simp
    omega
  rw [strictPrefixesFrom, hlen, List.range'_concat, List.map_append]
  congr 1
  · rw [strictPrefixesFrom]
    apply List.map_congr_left
    intro k hk
    have hk2 : k < p.length := by
      have := (List.mem_range'_1.mp hk).2
      omega
    exact List.take_append_of_le_length (Nat.le_of_lt hk2)
  · have hfull : root.length + 1 * (p.length - root.length) = p.length := by
      omega
    simp only [List.map_cons, List.map_nil, hfull]
    rw [List.take_append_of_le_length (Nat.le_refl _), List.take_length]

theorem ctxDir_snoc (fs : FSNode) {root p : FPath} (c : String)
    (h : root <+: p) :
    ctxDir fs root (p ++ [c])
      = if markerAt fs p then some p else ctxDir fs root p := by
  rw [ctxDir, strictPrefixesFrom_snoc c h, List.filter_append]
  by_cases hm : markerAt fs p
  · simp [hm, List.getLast?_append]
  · simp [hm, ctxDir]

theorem EntryInv_mono {fs : FSNode} {root : FPath} {store s2 : Store}
    {e : QItem} (hext : StoreExt store s2)
    (h : EntryInv fs root store e) : EntryInv fs root s2 e := by
  refine ⟨h.1, h.2.1, fun g hg => ?_⟩
  obtain ⟨hlt, d, hd, hfp⟩ := h.2.2 g hg
  exact ⟨Nat.lt_of_lt_of_le hlt hext.1, d, hd,
    (hext.2 g hlt).1.trans hfp⟩

/-- Expanding a directory with a successful context update produces
consistent child entries. -/
theorem EntryInv_children {fs : FSNode} {root p : FPath}
    {cs : List (String × FSNode)} {rt : Option FPath} {ctx dd2 : Option Nat}
    {store s2 : Store}
    (hwf : fs.wfb = true)
    (hres : resolvePath p fs = some (.dir false cs))
    (hroot : root <+: p)
    (hinv : ∀ g, ctx = some g → g < store.descrs.length ∧
        ∃ d, ctxDir fs root p = some d ∧
          (descrAt store g).filepath = d ++ [BIDS_DATASET_DESCRIPTION])
    (hld : loadDD p cs rt ctx store = .ok (dd2, s2)) :
    (∀ e ∈ childItems p cs dd2, EntryInv fs root s2 e)
    ∧ StoreExt store s2 := by
  have hchild : ∀ e ∈ childItems p cs dd2,
      ∃ cn, cn ∈ cs ∧ e = (p ++ [cn.1], some cn.2, dd2) := by
    intro e he
    simp only [childItems, List.mem_map] at he
    obtain ⟨cn, hcn, he2⟩ := he
    exact ⟨cn, hcn, he2.symm⟩
  have hnodeok : ∀ cn ∈ cs, resolvePath (p ++ [cn.1]) fs = some cn.2 := by
    intro cn hcn
    exact resolve_child hwf hres hcn
  have hprefc : ∀ (c : String), root <+: p ++ [c] :=
    fun c => hroot.trans (List.prefix_append _ _)
  rcases loadDD_ok_spec hld with ⟨hnm, hdd, hs2⟩ | ⟨dn, rp, hdn, hdd, hs2⟩
  · have hmf : markerAt fs p = false := by
      rw [markerAt, resolvePath_append, hres]
      simp [resolvePath, hnm]
    constructor
    · intro e he
      obtain ⟨cn, hcn, he2⟩ := hchild e he
      subst he2
      refine ⟨(hnodeok cn hcn).symm, hprefc cn.1, fun g hg => ?_⟩
      simp only at hg
      rw [hdd] at hg
      obtain ⟨hlt, d, hd, hfp⟩ := hinv g hg
      refine ⟨by rw [hs2]; exact hlt, d, ?_, by rw [hs2]; exact hfp⟩
      rw [ctxDir_snoc fs cn.1 hroot, hmf]
      simp [hd]
    · rw [hs2]
      exact StoreExt.refl _
  · have hmt : markerAt fs p = true := by
      rw [markerAt, resolvePath_append, hres]
      simp [resolvePath, hdn]
    constructor
    · intro e he
      obtain ⟨cn, hcn, he2⟩ := hchild e he
      subst he2
      refine ⟨(hnodeok cn hcn).symm, hprefc cn.1, fun g hg => ?_⟩
      simp only at hg
      rw [hdd] at hg
      have hg2 : g = store.descrs.length := by simpa using hg.symm
      subst hg2
      refine ⟨by rw [hs2]; simp, p, ?_, ?_⟩
      · rw [ctxDir_snoc fs cn.1 hroot, hmt]
        simp
      · rw [hs2, descrAt_push_self]
    · rw [hs2]
      exact StoreExt.push _ _

/-- Any queue whose entries are consistent has valid contexts. -/
theorem EntryInv_ctxValid {fs : FSNode} {root : FPath} {store : Store}
    {q : List QItem} (h : ∀ e ∈ q, EntryInv fs root store e) :
    ctxValid store q :=
  fun e he g hg => ((h e he).2.2 g hg).1

/-- A BIDS-tagged result of `dandi_file` takes its back-reference from the
supplied context and carries the classified filepath. -/
theorem dandi_file_ref_ctx {fp : FPath} {node : Option FSNode}
    {root : Option FPath} {bdd : Option Nat} {store : Store} {df : DandiFile}
    {s2 : Store}
    (h : dandi_file fp node root bdd store = .ok (df, s2)) :
    ∀ g, df.bidsRef = some g → bdd = some g ∧ df.assetPath = fp := by
  obtain ⟨path, _, hcase⟩ := dandi_file_ok_cases h
  rcases hcase with ⟨hdf, _⟩ | ⟨_, ⟨_, hfac⟩ | ⟨g0, hg0, hfac⟩⟩
  · subst hdf
    intro g hg
    simp [DandiFile.bidsRef] at hg
  · intro g hg
    rw [(DandiFileFactory_spec hfac).2.2.1] at hg
    cases hg
  · intro g hg
    obtain ⟨hgg, hap⟩ := (BIDSFileFactory_spec hfac).2.1 g hg
    exact ⟨by rw [hg0, hgg], hap⟩

/-- Master context invariant: every BIDS-tagged yield's back-reference is an
allocated description entity whose filepath is
`d/dataset_description.json` for `d` the yield's nearest enclosing
description directory. -/
theorem findLoop_ctx (fs : FSNode) (root : FPath) (a i : Bool)
    (hwf : fs.wfb = true) :
    ∀ (fuel : Nat) (q : List QItem) (store : Store) (r : TravResult),
      findLoop (some root) a i fuel q store = some r →
      (∀ e ∈ q, EntryInv fs root store e) →
      ∀ df ∈ r.yields, ∀ g, df.bidsRef = some g →
        g < r.store.descrs.length
        ∧ ∃ d, ctxDir fs root df.assetPath = some d
            ∧ (descrAt r.store g).filepath
                = d ++ [BIDS_DATASET_DESCRIPTION] := by
  intro fuel
  induction fuel with
  | zero =>
      intro q store r h
      simp [findLoop] at h
  | succ fuel ih =>
      intro q store r h hq
      cases q with
      | nil =>
          simp only [findLoop] at h
          have hr : r = ⟨[], store, none⟩ := by simpa using h.symm
          subst hr
          intro df hdf
          simp at hdf
      | cons entry rest =>
          obtain ⟨p, node, ctx⟩ := entry
          have hhead : EntryInv fs root store (p, node, ctx) :=
            hq _ (List.mem_cons_self _ _)
          have htailinv : ∀ e ∈ rest, EntryInv fs root store e :=
            fun e he => hq e (List.mem_cons_of_mem _ he)
          rcases findLoop_cons_cases (some root) a i fuel p node ctx rest
              store with
            ⟨heq, _⟩
            | ⟨cs, dd2, s2, _, hnd, _, hld, heq⟩
            | ⟨cs, e, _, hnd, _, hld, heq⟩
            | ⟨cs, df0, s2, _, hnd, _, _, hdf0, heq⟩
            | ⟨cs, e, dd2, s2, _, hnd, _, _, hdf0, hld, heq⟩
            | ⟨cs, e, e2, _, hnd, _, _, hdf0, hld, heq⟩
            | ⟨cs, e, _, hnd, _, _, hdf0, _, heq⟩
            | ⟨df0, s2, _, hnd, hdf0, heq⟩
            | ⟨e, _, hnd, hdf0, heq⟩
          · rw [heq] at h
            exact ih rest store r h htailinv
          · rw [heq] at h
            have hres : resolvePath p fs = some (.dir false cs) := by
              rw [← hhead.1, hnd]
            obtain ⟨hchildren, hext⟩ :=
              EntryInv_children hwf hres hhead.2.1 hhead.2.2 hld
            have hallinv : ∀ e ∈ rest ++ childItems p cs dd2,
                EntryInv fs root s2 e := by
              intro e he
              rcases List.mem_append.mp he with hm | hm
              · exact EntryInv_mono hext (htailinv e hm)
              · exact hchildren e hm
            exact ih _ s2 r h hallinv
          · rw [heq] at h
            have hr : r = ⟨[], store, some e⟩ := by simpa using h.symm
            subst hr
            intro df hdf
            simp at hdf
          · rw [heq] at h
            cases hrec : findLoop (some root) a i fuel rest s2 with
            | none => rw [hrec] at h; simp at h
            | some r2 =>
                rw [hrec] at h
                have hr : r = ⟨df0 :: r2.yields, r2.store, r2.err⟩ := by
                  simpa using h.symm
                subst hr
                have hext1 := dandi_file_ext hdf0
                have hrest2 : ∀ e ∈ rest, EntryInv fs root s2 e :=
                  fun e he => EntryInv_mono hext1 (htailinv e he)
                have hih := ih rest s2 r2 hrec hrest2
                have hextAll : StoreExt s2 r2.store :=
                  (findLoop_files (some root) a i fuel rest s2 r2 hrec
                    (EntryInv_ctxValid hrest2)).1
                intro df hdf g hg
                rcases List.mem_cons.mp hdf with hdfh | hdfm
                · subst hdfh
                  obtain ⟨hbdd, hap⟩ := dandi_file_ref_ctx hdf0 g hg
                  obtain ⟨hlt, d, hd, hfp⟩ := hhead.2.2 g hbdd
                  refine ⟨Nat.lt_of_lt_of_le hlt
                      (Nat.le_trans hext1.1 hextAll.1), d,
                    by rw [hap]; exact hd, ?_⟩
                  have h1 := (hext1.2 g hlt).1
                  have h2 := (hextAll.2 g (Nat.lt_of_lt_of_le hlt hext1.1)).1
                  rw [h2, h1, hfp]
                · exact hih df hdfm g hg
          · rw [heq] at h
            have hres : resolvePath p fs = some (.dir false cs) := by
              rw [← hhead.1, hnd]
            obtain ⟨hchildren, hext⟩ :=
              EntryInv_children hwf hres hhead.2.1 hhead.2.2 hld
            have hallinv : ∀ e ∈ rest ++ childItems p cs dd2,
                EntryInv fs root s2 e := by
              intro e he
              rcases List.mem_append.mp he with hm | hm
              · exact EntryInv_mono hext (htailinv e hm)
              · exact hchildren e hm
            exact ih _ s2 r h hallinv
          · rw [heq] at h
            have hr : r = ⟨[], store, some e2⟩ := by simpa using h.symm
            subst hr
            intro df hdf
            simp at hdf
          · rw [heq] at h
            have hr : r = ⟨[], store, some e⟩ := by simpa using h.symm
            subst hr
            intro df hdf
            simp at hdf
          · rw [heq] at h
            cases hrec : findLoop (some root) a i fuel rest s2 with
            | none => rw [hrec] at h; simp at h
            | some r2 =>
                rw [hrec] at h
                have hr : r = if suppressed a i df0 = true then r2
                    else ⟨df0 :: r2.yields, r2.store, r2.err⟩ := by
                  simpa using h.symm
                have hext1 := dandi_file_ext hdf0
                have hrest2 : ∀ e ∈ rest, EntryInv fs root s2 e :=
                  fun e he => EntryInv_mono hext1 (htailinv e he)
                have hih := ih rest s2 r2 hrec hrest2
                have hextAll : StoreExt s2 r2.store :=
                  (findLoop_files (some root) a i fuel rest s2 r2 hrec
                    (EntryInv_ctxValid hrest2)).1
                by_cases hs : suppressed a i df0 = true
                · rw [if_pos hs] at hr
                  rw [hr]
                  exact hih
                · rw [if_neg hs] at hr
                  subst hr
                  intro df hdf g hg
                  rcases List.mem_cons.mp hdf with hdfh | hdfm
                  · subst hdfh
                    obtain ⟨hbdd, hap⟩ := dandi_file_ref_ctx hdf0 g hg
                    obtain ⟨hlt, d, hd, hfp⟩ := hhead.2.2 g hbdd
                    refine ⟨Nat.lt_of_lt_of_le hlt
                        (Nat.le_trans hext1.1 hextAll.1), d,
                      by rw [hap]; exact hd, ?_⟩
                    have h1 := (hext1.2 g hlt).1
                    have h2 := (hextAll.2 g
                      (Nat.lt_of_lt_of_le hlt hext1.1)).1
                    rw [h2, h1, hfp]
                  · exact hih df hdfm g hg
          · rw [heq] at h
            have hr : r = ⟨[], store, some e⟩ := by simpa using h.symm
            subst hr
            intro df hdf
            simp at hdf

/-- C1: in a traversal of a dataset root, every yielded BIDS-tagged asset's
back-reference resolves to the description entity holding the marker of the
asset's nearest enclosing `dataset_description.json` directory (nested
description files superseding ancestors' for everything below them), and
that description entity's `dataset_files` collection is exactly the list of
BIDS-tagged yields that reference it, in discovery order. -/
theorem bids_backref_nearest (fs : FSNode) (root : FPath) (a i : Bool)
    (r : TravResult) (df : DandiFile) (g : Nat)
    (hwf : fs.wfb = true)
    (hrun : find_dandi_files fs [root] (some root) a i = some r)
    (hdf : df ∈ r.yields) (href : df.bidsRef = some g) :
    (∃ d, ctxDir fs root df.assetPath = some d
        ∧ (descrAt r.store g).filepath = d ++ [BIDS_DATASET_DESCRIPTION])
  ∧ (descrAt r.store g).dataset_files
      = r.yields.filter (fun y => y.bidsRef == some g) := by
  rw [find_dandi_files.eq_def] at hrun
  simp only [List.map, List.all, relTo, List.prefix_refl, if_true,
    Bool.and_true] at hrun
  rw [if_pos (by simp)] at hrun
  have hq : ∀ e ∈ ([(root, resolvePath root fs, (none : Option Nat))] :
      List QItem), EntryInv fs root emptyStore e := by
    intro e he
    simp at he
    subst he
    exact ⟨rfl, List.prefix_refl _, fun g2 hg2 => by cases hg2⟩
  obtain ⟨hlt, d, hd, hfp⟩ := findLoop_ctx fs root a i hwf _ _ _ _ hrun hq
    df hdf g href
  obtain ⟨_, hfiles, _⟩ := findLoop_files (some root) a i _ _ _ _ hrun
    (EntryInv_ctxValid hq)
  refine ⟨⟨d, hd, hfp⟩, ?_⟩
  rw [hfiles g]
  simp only [emptyStore, descrAt, List.getD, List.getElem?_nil, Option.getD_none]
  rfl

/-- Witness for C1 on the concrete tree of the C10 witness: the NWB asset's
back-reference resolves to the description entity of the root marker. -/
theorem bids_backref_nearest_witness :
    (∃ d, ctxDir c10Tree ["ds"]
          (DandiFile.nwbBIDS ["ds", "a.nwb"] "a.nwb" 0).assetPath = some d
        ∧ (descrAt c10Result.store 0).filepath
            = d ++ [BIDS_DATASET_DESCRIPTION])
  ∧ (descrAt c10Result.store 0).dataset_files
      = c10Result.yields.filter (fun y => y.bidsRef == some 0) :=
  bids_backref_nearest c10Tree ["ds"] false false c10Result
    (DandiFile.nwbBIDS ["ds", "a.nwb"] "a.nwb" 0) 0 (by decide) rfl
    (by simp [c10Result]) rfl

end CtxInvariant

section ZarrTerminal

/-- A prefix of `p ++ [c]` is a prefix of `p` or all of it. -/
theorem prefix_concat_cases {z p : FPath} {c : String}
    (h : z <+: p ++ [c]) : z <+: p ∨ z = p ++ [c] := by
  rcases Nat.lt_or_ge z.length (p ++ [c]).length with hl | hl
  · left
    have hle : z.length ≤ p.length := by simp at hl; omega
    exact List.prefix_of_prefix_length_le h (List.prefix_append p [c]) hle
  · right
    exact List.IsPrefix.eq_of_length h (Nat.le_antisymm h.length_le hl)

/-- A successful `dandi_file` result carries the classified filepath (a
description entity carries none). -/
theorem dandi_file_assetPath {fp : FPath} {node : Option FSNode}
    {root : Option FPath} {bdd : Option Nat} {store : Store} {df : DandiFile}
    {s2 : Store}
    (h : dandi_file fp node root bdd store = .ok (df, s2)) :
    df.assetPath = fp ∨ df.assetPath = [] := by
  obtain ⟨path, _, hcase⟩ := dandi_file_ok_cases h
  rcases hcase with ⟨hdf, _⟩ | ⟨_, ⟨_, hfac⟩ | ⟨g, _, hfac⟩⟩
  · subst hdf; exact Or.inl rfl
  · rcases (DandiFileFactory_spec hfac).2.2.2.1 with hap | ⟨r2, hdd⟩
    · exact Or.inl hap
    · subst hdd; exact Or.inr rfl
  · rw [BIDSFileFactory] at hfac
    cases hcl : DandiFileType.classify node (pathName fp) with
    | error e => rw [hcl] at hfac; simp at hfac
    | ok ft =>
        rw [hcl] at hfac
        cases ft with
        | BIDS_DATASET_DESCRIPTION =>
            by_cases hfp : fp = (descrAt store g).filepath
            · rw [if_pos hfp] at hfac
              obtain ⟨h1, h2⟩ := by simpa using hfac
              subst h1
              exact Or.inr rfl
            · rw [if_neg hfp] at hfac
              obtain ⟨h1, h2⟩ := by simpa [Store.alloc] using hfac
              subst h1
              exact Or.inr rfl
        | NWB =>
            obtain ⟨h1, h2⟩ := by simpa using hfac
            subst h1
            exact Or.inl rfl
        | ZARR =>
            obtain ⟨h1, h2⟩ := by simpa using hfac
            subst h1
            exact Or.inl rfl
        | VIDEO =>
            obtain ⟨h1, h2⟩ := by simpa using hfac
            subst h1
            exact Or.inl rfl
        | GENERIC =>
            obtain ⟨h1, h2⟩ := by simpa using hfac
            subst h1
            exact Or.inl rfl

/-- Master invariant for C6: if no queue entry lies strictly inside the
Zarr-classified directory `z` (and `z` is not the root, which is always
expanded), no later yield lies strictly inside `z` either — the loop yields
a Zarr-classified directory without enqueueing its children, and only
expands directories that fail classification. -/
theorem findLoop_zarr (fs : FSNode) (root z : FPath) (a i : Bool)
    (hwf : fs.wfb = true)
    (hzcl : DandiFileType.classify (resolvePath z fs) (pathName z)
      = .ok .ZARR)
    (hzroot : root ≠ z) :
    ∀ (fuel : Nat) (q : List QItem) (store : Store) (r : TravResult),
      findLoop (some root) a i fuel q store = some r →
      (∀ e ∈ q, e.2.1 = resolvePath e.1 fs ∧ ¬(z <+: e.1 ∧ z ≠ e.1)) →
      ∀ df ∈ r.yields, ¬(z <+: df.assetPath ∧ z ≠ df.assetPath) := by
  intro fuel
  induction fuel with
  | zero =>
      intro q store r h
      simp [findLoop] at h
  | succ fuel ih =>
      intro q store r h hq
      cases q with
      | nil =>
          simp only [findLoop] at h
          have hr : r = ⟨[], store, none⟩ := by simpa using h.symm
          subst hr
          intro df hdf
          simp at hdf
      | cons entry rest =>
          obtain ⟨p, node, ctx⟩ := entry
          have hhead := hq _ (List.mem_cons_self _ _)
          have htailinv : ∀ e ∈ rest,
              e.2.1 = resolvePath e.1 fs ∧ ¬(z <+: e.1 ∧ z ≠ e.1) :=
            fun e he => hq e (List.mem_cons_of_mem _ he)
          have hchildinv : ∀ (cs : List (String × FSNode)) (dd2 : Option Nat),
              resolvePath p fs = some (.dir false cs) → p ≠ z →
              ∀ e ∈ childItems p cs dd2,
                e.2.1 = resolvePath e.1 fs ∧ ¬(z <+: e.1 ∧ z ≠ e.1) := by
            intro cs dd2 hres hpz e he
            simp only [childItems, List.mem_map] at he
            obtain ⟨cn, hcn, he2⟩ := he
            subst he2
            refine ⟨(resolve_child hwf hres hcn).symm, ?_⟩
            rintro ⟨hpre, hne⟩
            rcases prefix_concat_cases hpre with hzp | hzeq
            · rcases eq_or_ne z p with hzp2 | hzp2
              · exact hpz hzp2.symm
              · exact hhead.2 ⟨hzp, hzp2⟩
            · exact hne hzeq
          rcases findLoop_cons_cases (some root) a i fuel p node ctx rest
              store with
            ⟨heq, _⟩
            | ⟨cs, dd2, s2, _, hnd, hrt, hld, heq⟩
            | ⟨cs, e, _, hnd, _, hld, heq⟩
            | ⟨cs, df0, s2, _, hnd, _, _, hdf0, heq⟩
            | ⟨cs, e, dd2, s2, _, hnd, _, _, hdf0, hld, heq⟩
            | ⟨cs, e, e2, _, hnd, _, _, hdf0, hld, heq⟩
            | ⟨cs, e, _, hnd, _, _, hdf0, _, heq⟩
            | ⟨df0, s2, _, hnd, hdf0, heq⟩
            | ⟨e, _, hnd, hdf0, heq⟩
          · rw [heq] at h
            exact ih rest store r h htailinv
          · rw [heq] at h
            have hres : resolvePath p fs = some (.dir false cs) := by
              rw [← hhead.1, hnd]
            have hp : root = p := by simpa using hrt
            have hpz : p ≠ z := hp ▸ hzroot
            have hall : ∀ e ∈ rest ++ childItems p cs dd2,
                e.2.1 = resolvePath e.1 fs ∧ ¬(z <+: e.1 ∧ z ≠ e.1) := by
              intro e he
              rcases List.mem_append.mp he with hm | hm
              · exact htailinv e hm
              · exact hchildinv cs dd2 hres hpz e hm
            exact ih _ s2 r h hall
          · rw [heq] at h
            have hr : r = ⟨[], store, some e⟩ := by simpa using h.symm
            subst hr
            intro df hdf
            simp at hdf
          · rw [heq] at h
            cases hrec : findLoop (some root) a i fuel rest s2 with
            | none => rw [hrec] at h; simp at h
            | some r2 =>
                rw [hrec] at h
                have hr : r = ⟨df0 :: r2.yields, r2.store, r2.err⟩ := by
                  simpa using h.symm
                subst hr
                intro df hdf
                rcases List.mem_cons.mp hdf with hdfh | hdfm
                · subst hdfh
                  rcases dandi_file_assetPath hdf0 with hap | hap
                  · rw [hap]
                    exact hhead.2
                  · rw [hap]
                    rintro ⟨h1, h2⟩
                    exact h2 (by simpa using h1)
                · exact ih rest s2 r2 hrec htailinv df hdfm
          · rw [heq] at h
            have hres : resolvePath p fs = some (.dir false cs) := by
              rw [← hhead.1, hnd]
            have hpz : p ≠ z := by
              intro hpz0
              have hcls := dandi_file_unknownAsset_inv hdf0
              have hnodeq : node = resolvePath p fs := hhead.1
              rw [hnodeq, hpz0] at hcls
              rw [hzcl] at hcls
              simp at hcls
            have hall : ∀ e ∈ rest ++ childItems p cs dd2,
                e.2.1 = resolvePath e.1 fs ∧ ¬(z <+: e.1 ∧ z ≠ e.1) := by
              intro e he
              rcases List.mem_append.mp he with hm | hm
              · exact htailinv e hm
              · exact hchildinv cs dd2 hres hpz e hm
            exact ih _ s2 r h hall
          · rw [heq] at h
            have hr : r = ⟨[], store, some e2⟩ := by simpa using h.symm
            subst hr
            intro df hdf
            simp at hdf
          · rw [heq] at h
            have hr : r = ⟨[], store, some e⟩ := by simpa using h.symm
            subst hr
            intro df hdf
            simp at hdf
          · rw [heq] at h
            cases hrec : findLoop (some root) a i fuel rest s2 with
            | none => rw [hrec] at h; simp at h
            | some r2 =>
                rw [hrec] at h
                have hr : r = if suppressed a i df0 = true then r2
                    else ⟨df0 :: r2.yields, r2.store, r2.err⟩ := by
                  simpa using h.symm
                by_cases hs : suppressed a i df0 = true
                · rw [if_pos hs] at hr
                  rw [hr]
                  exact ih rest s2 r2 hrec htailinv
                · rw [if_neg hs] at hr
                  subst hr
                  intro df hdf
                  rcases List.mem_cons.mp hdf with hdfh | hdfm
                  · subst hdfh
                    rcases dandi_file_assetPath hdf0 with hap | hap
                    · rw [hap]
                      exact hhead.2
                    · rw [hap]
                      rintro ⟨h1, h2⟩
                      exact h2 (by simpa using h1)
                  · exact ih rest s2 r2 hrec htailinv df hdfm
          · rw [heq] at h
            have hr : r = ⟨[], store, some e⟩ := by simpa using h.symm
            subst hr
            intro df hdf
            simp at hdf

/-- C6 counterexample: when a starting path itself points strictly inside a
directory that classifies as a Zarr, the traversal classifies and yields an
entity for it even though the Zarr directory is also yielded in the same
traversal, so the unconditional claim fails. -/
theorem zarr_descendant_counterexample :
    find_dandi_files c6Tree [["ds", "z.zarr"], ["ds", "z.zarr", "f.txt"]]
        (some ["ds"]) true false = some c6Result
  ∧ DandiFile.zarr ["ds", "z.zarr"] "z.zarr" ∈ c6Result.yields
  ∧ ∃ df ∈ c6Result.yields,
      ["ds", "z.zarr"] <+: df.assetPath
        ∧ df.assetPath ≠ ["ds", "z.zarr"] := by
  refine ⟨rfl, by simp [c6Result], ?_⟩
  exact ⟨.generic ["ds", "z.zarr", "f.txt"] "z.zarr/f.txt",
    by simp [c6Result], by decide, by decide⟩

/-- C6 (amended): a directory classified as a directory asset (Zarr) is
terminal for the traversal itself: provided it is not the dataset root
(which is always expanded) and no starting path already lies strictly
inside it, every yielded entity whose filepath is at or below the Zarr is
the Zarr entity's own path — nothing strictly inside it is yielded.  The
claim's unconditional form fails, see `zarr_descendant_counterexample`. -/
theorem zarr_terminal (fs : FSNode) (paths : List FPath) (root z : FPath)
    (a i : Bool) (r : TravResult)
    (hwf : fs.wfb = true)
    (hz : DandiFileType.classify (resolvePath z fs) (pathName z)
      = .ok .ZARR)
    (hzroot : root ≠ z)
    (hpaths : ∀ p ∈ paths, ¬(z <+: p ∧ z ≠ p))
    (hrun : find_dandi_files fs paths (some root) a i = some r) :
    ∀ df ∈ r.yields, z <+: df.assetPath → df.assetPath = z := by
  by_cases hall : paths.all (fun p => (relTo p root).isSome) = true
  · rw [find_dandi_files.eq_def] at hrun
    simp only [hall, if_true] at hrun
    have hinv : ∀ e ∈ paths.map
        (fun p => (p, resolvePath p fs, (none : Option Nat))),
        e.2.1 = resolvePath e.1 fs ∧ ¬(z <+: e.1 ∧ z ≠ e.1) := by
      intro e he
      simp only [List.mem_map] at he
      obtain ⟨p, hp, he2⟩ := he
      subst he2
      exact ⟨rfl, hpaths p hp⟩
    intro df hdf hpre
    by_contra hne
    exact findLoop_zarr fs root z a i hwf hz hzroot _ _ _ _ hrun hinv df hdf
      ⟨hpre, fun hh => hne hh.symm⟩
  · have hallf : paths.all (fun p => (relTo p root).isSome) = false := by
      simpa using hall
    rw [find_dandi_files.eq_def] at hrun
    simp only [hallf, if_false] at hrun
    have hr : r = ⟨[], emptyStore, some .outsideRoot⟩ := by
      simpa using hrun.symm
    subst hr
    intro df hdf
    simp at hdf

/-- Witness for the amended C6 theorem on a concrete tree: traversing the
dataset root yields the Zarr itself and nothing inside it. -/
theorem zarr_terminal_witness :
    (∀ p ∈ [["ds"]],
        ¬((["ds", "z.zarr"] : FPath) <+: p ∧ ["ds", "z.zarr"] ≠ p))
  ∧ ∀ df ∈ (⟨[.zarr ["ds", "z.zarr"] "z.zarr"], emptyStore, none⟩ :
        TravResult).yields,
      ["ds", "z.zarr"] <+: df.assetPath → df.assetPath = ["ds", "z.zarr"] :=
  ⟨by decide, zarr_terminal c6Tree [["ds"]] ["ds"] ["ds", "z.zarr"] true false
    ⟨[.zarr ["ds", "z.zarr"] "z.zarr"], emptyStore, none⟩
    (by decide) rfl (by decide) (by decide) rfl⟩

end ZarrTerminal

section MetadataRoot

theorem travYields (l : List DandiFile) (s : Store) (e : Option DandiError) :
    (⟨l, s, e⟩ : TravResult).yields = l := rfl

theorem countP_ext {α : Type} (p q : α → Bool) (l : List α)
    (h : ∀ x ∈ l, p x = q x) : l.countP p = l.countP q := by
  induction l with
  | nil => rfl
  | cons a t ih =>
      rw [List.countP_cons, List.countP_cons, h a (List.mem_cons_self _ _),
        ih (fun b hb => h b (List.mem_cons_of_mem _ hb))]

theorem lookupChild_none_name {cs : List (String × FSNode)} {c : String}
    (h : lookupChild cs c = none) : ∀ cn ∈ cs, cn.1 ≠ c := by
  induction cs with
  | nil =>
      intro cn hcn
      cases hcn
  | cons hd tl ih =>
      obtain ⟨n, t⟩ := hd
      intro cn hcn
      simp only [lookupChild] at h
      by_cases hnc : n = c
      · rw [if_pos hnc] at h
        cases h
      · rw [if_neg hnc] at h
        rcases List.mem_cons.mp hcn with h1 | h1
        · subst h1
          exact hnc
        · exact ih h cn h1

/-- In a well-formed child list names are pairwise distinct, so at most one
child bears any given name. -/
theorem wfbChildren_countP {cs : List (String × FSNode)} (nm : String)
    (hwf : wfbChildren cs = true) :
    cs.countP (fun cn => cn.1 == nm) ≤ 1 := by
  induction cs with
  | nil => simp
  | cons hd tl ih =>
      obtain ⟨n, t⟩ := hd
      rw [wfbChildren] at hwf
      simp only [Bool.and_eq_true] at hwf
      obtain ⟨⟨⟨hgn, hlk⟩, hwt⟩, htl⟩ := hwf
      by_cases hn : n = nm
      · subst hn
        have hlk2 : lookupChild tl n = none := by
          cases hx : lookupChild tl n with
          | none => rfl
          | some u => rw [hx] at hlk; simp at hlk
        have h0 : tl.countP (fun cn => cn.1 == n) = 0 :=
          List.countP_eq_zero.mpr (fun cn hcn => by
            simp only [beq_iff_eq]
            exact lookupChild_none_name hlk2 cn hcn)
        rw [List.countP_cons, h0]
        simp
      · rw [List.countP_cons, if_neg (by simp [hn])]
        simpa using ih htl

theorem prefix_append_drop {root fp : FPath} (h : root <+: fp) :
    root ++ fp.drop root.length = fp := by
  obtain ⟨t, ht⟩ := h
  subst ht
  rw [List.drop_left]

/-- The root-relative POSIX path equals the metadata filename only for the
file directly at the root. -/
theorem meta_path_unique {root fp : FPath} (hpre : root <+: fp)
    (h : posixJoin (fp.drop root.length) = dandiset_metadata_file) :
    fp = root ++ [dandiset_metadata_file] := by
  rcases posix_eq_noslash (by decide) h with h0 | h0
  · rw [h0] at h
    exact absurd h (by decide)
  · have h2 := prefix_append_drop hpre
    rw [h0] at h2
    exact h2.symm

/-- The plain factory never constructs the dataset-metadata entity. -/
theorem DandiFileFactory_not_metadata {fp : FPath} {node : Option FSNode}
    {path : String} {store : Store} {fp2 : FPath} {s2 : Store}
    (h : DandiFileFactory fp node path store
      = .ok (.dandisetMetadata fp2, s2)) : False := by
  rw [DandiFileFactory] at h
  cases hcl : DandiFileType.classify node (pathName fp) with
  | error e => rw [hcl] at h; simp at h
  | ok ft => rw [hcl] at h; cases ft <;> simp [Store.alloc] at h

/-- The BIDS factory never constructs the dataset-metadata entity either. -/
theorem BIDSFileFactory_not_metadata {g : Nat} {fp : FPath}
    {node : Option FSNode} {path : String} {store : Store} {fp2 : FPath}
    {s2 : Store}
    (h : BIDSFileFactory g fp node path store
      = .ok (.dandisetMetadata fp2, s2)) : False := by
  rw [BIDSFileFactory] at h
  cases hcl : DandiFileType.classify node (pathName fp) with
  | error e => rw [hcl] at h; simp at h
  | ok ft =>
      rw [hcl] at h
      cases ft with
      | BIDS_DATASET_DESCRIPTION =>
          by_cases hfp : fp = (descrAt store g).filepath
          · rw [if_pos hfp] at h; simp at h
          · rw [if_neg hfp] at h; simp [Store.alloc] at h
      | NWB => simp at h
      | ZARR => simp at h
      | VIDEO => simp at h
      | GENERIC => simp at h

/-- Only the metadata guard of `dandi_file` can construct the
dataset-metadata entity: the node is a file, the root-relative POSIX path is
the canonical metadata filename, and the store is untouched. -/
theorem dandi_file_metadata_inv {fp : FPath} {node : Option FSNode}
    {rt : Option FPath} {bdd : Option Nat} {store : Store} {fp2 : FPath}
    {s2 : Store}
    (h : dandi_file fp node rt bdd store = .ok (.dandisetMetadata fp2, s2)) :
    fp2 = fp ∧ s2 = store ∧ isFileNode node = true
  ∧ ((rt = none ∧ pathName fp = dandiset_metadata_file)
      ∨ ∃ rt0, rt = some rt0 ∧ rt0 <+: fp
          ∧ posixJoin (fp.drop rt0.length) = dandiset_metadata_file) := by
  obtain ⟨path, hpath, hcase⟩ := dandi_file_ok_cases h
  rcases hcase with ⟨hdf, hs2, hfn, hmeta⟩ | ⟨_, ⟨_, hfac⟩ | ⟨g, _, hfac⟩⟩
  · have hfp2 : fp2 = fp := by simpa using hdf
    refine ⟨hfp2, hs2, hfn, ?_⟩
    rcases hpath with ⟨hrt, hp⟩ | ⟨rt0, hrt, hpre, hp, _⟩
    · rw [hp] at hmeta
      exact Or.inl ⟨hrt, hmeta⟩
    · rw [hp] at hmeta
      exact Or.inr ⟨rt0, hrt, hpre, hmeta⟩
  · exact (DandiFileFactory_not_metadata hfac).elim
  · exact (BIDSFileFactory_not_metadata hfac).elim

/-- At the root's own `dandiset.yaml`, `dandi_file` constructs the metadata
entity. -/
theorem dandi_file_at_meta {node : Option FSNode} (root : FPath)
    (bdd : Option Nat) (store : Store) (hfn : isFileNode node = true) :
    dandi_file (root ++ [dandiset_metadata_file]) node (some root) bdd store
      = .ok (.dandisetMetadata (root ++ [dandiset_metadata_file]), store) := by
  have hrel : relTo (root ++ [dandiset_metadata_file]) root
      = some [dandiset_metadata_file] := by
    rw [relTo, if_pos (List.prefix_append _ _), List.drop_left]
  simp only [dandi_file, hrel]
  simp [hfn, posixJoin]
  rw [if_neg (by decide : ¬ dandiset_metadata_file = ".")]
  simp

/-- A file named `dandiset.yaml` classifies as plain `GENERIC`. -/
theorem classify_yaml_file (sl : Bool) :
    DandiFileType.classify (some (.file sl)) dandiset_metadata_file
      = .ok .GENERIC := rfl

/-- A file named `dandiset.yaml` anywhere but directly at the root comes out
of `dandi_file` as a generic asset (plain or BIDS-tagged). -/
theorem dandi_file_yaml_elsewhere {fp : FPath} {sl : Bool} {root : FPath}
    {bdd : Option Nat} {store : Store} {df : DandiFile} {s2 : Store}
    (hnm : pathName fp = dandiset_metadata_file)
    (hne : fp ≠ root ++ [dandiset_metadata_file])
    (h : dandi_file fp (some (.file sl)) (some root) bdd store
      = .ok (df, s2)) :
    (∃ rp, df = .generic fp rp) ∨ ∃ rp g, df = .genericBIDS fp rp g := by
  obtain ⟨path, hpath, hcase⟩ := dandi_file_ok_cases h
  rcases hpath with ⟨hrt, _⟩ | ⟨rt0, hrt, hpre, hp, _⟩
  · cases hrt
  · have hrt0 : rt0 = root := by simpa using hrt.symm
    subst hrt0
    rcases hcase with ⟨_, _, _, hmeta⟩ | ⟨_, ⟨_, hfac⟩ | ⟨g, _, hfac⟩⟩
    · rw [hp] at hmeta
      exact absurd (meta_path_unique hpre hmeta) hne
    · rw [DandiFileFactory] at hfac
      rw [hnm, classify_yaml_file] at hfac
      obtain ⟨h1, h2⟩ := by simpa using hfac
      exact Or.inl ⟨path, h1.symm⟩
    · rw [BIDSFileFactory] at hfac
      rw [hnm, classify_yaml_file] at hfac
      obtain ⟨h1, h2⟩ := by simpa using hfac
      exact Or.inr ⟨path, g, h1.symm⟩

/-- Only the metadata entity satisfies the metadata test. -/
theorem isMetadataFile_eq {df : DandiFile} (h : isMetadataFile df = true) :
    ∃ fp, df = .dandisetMetadata fp := by
  cases df
  case dandisetMetadata fp => exact ⟨fp, rfl⟩
  all_goals exact absurd h (by simp [isMetadataFile])

/-- Master counting invariant for C7: the number of dataset-metadata yields
is bounded by the number of queue entries at the root's own `dandiset.yaml`
plus the number of queue entries at the root itself (whose expansion can
enqueue the former at most once, a well-formed directory's child names being
distinct; no other expansion can reach that path). -/
theorem findLoop_meta_count (fs : FSNode) (root : FPath) (a i : Bool)
    (hwf : fs.wfb = true) :
    ∀ (fuel : Nat) (q : List QItem) (store : Store) (r : TravResult),
      findLoop (some root) a i fuel q store = some r →
      (∀ e ∈ q, e.2.1 = resolvePath e.1 fs ∧ root <+: e.1) →
      r.yields.countP (fun df => isMetadataFile df)
        ≤ q.countP (fun e => e.1 == root ++ [dandiset_metadata_file])
          + q.countP (fun e => e.1 == root) := by
  intro fuel
  induction fuel with
  | zero =>
      intro q store r h
      simp [findLoop] at h
  | succ fuel ih =>
      intro q store r h hq
      cases q with
      | nil =>
          simp only [findLoop] at h
          have hr : r = ⟨[], store, none⟩ := by simpa using h.symm
          subst hr
          simp
      | cons entry rest =>
          obtain ⟨p, node, ctx⟩ := entry
          have hhead := hq _ (List.mem_cons_self _ _)
          have htailinv : ∀ e ∈ rest,
              e.2.1 = resolvePath e.1 fs ∧ root <+: e.1 :=
            fun e he => hq e (List.mem_cons_of_mem _ he)
          have hchildinv : ∀ (cs : List (String × FSNode)) (dd2 : Option Nat),
              resolvePath p fs = some (.dir false cs) →
              ∀ e ∈ childItems p cs dd2,
                e.2.1 = resolvePath e.1 fs ∧ root <+: e.1 := by
            intro cs dd2 hres e he
            simp only [childItems, List.mem_map] at he
            obtain ⟨cn, hcn, he2⟩ := he
            subst he2
            exact ⟨(resolve_child hwf hres hcn).symm,
              hhead.2.trans (List.prefix_append _ _)⟩
          rcases findLoop_cons_cases (some root) a i fuel p node ctx rest
              store with
            ⟨heq, _⟩
            | ⟨cs, dd2, s2, _, hnd, hrt, hld, heq⟩
            | ⟨cs, e, _, hnd, _, hld, heq⟩
            | ⟨cs, df0, s2, _, hnd, _, _, hdf0, heq⟩
            | ⟨cs, e, dd2, s2, _, hnd, hrt, _, hdf0, hld, heq⟩
            | ⟨cs, e, e2, _, hnd, _, _, hdf0, hld, heq⟩
            | ⟨cs, e, _, hnd, _, _, hdf0, _, heq⟩
            | ⟨df0, s2, _, hnd, hdf0, heq⟩
            | ⟨e, _, hnd, hdf0, heq⟩
          · rw [heq] at h
            have hih := ih rest store r h htailinv
            rw [List.countP_cons, List.countP_cons]
            omega
          · rw [heq] at h
            have hp : root = p := by simpa using hrt
            subst hp
            have hres : resolvePath root fs = some (.dir false cs) := by
              rw [← hhead.1, hnd]
            have hwfcs : wfbChildren cs = true := by
              have h2 := wfb_resolve hwf hres
              simpa [FSNode.wfb] using h2
            have hallinv : ∀ e ∈ rest ++ childItems root cs dd2,
                e.2.1 = resolvePath e.1 fs ∧ root <+: e.1 := by
              intro e he
              rcases List.mem_append.mp he with hm | hm
              · exact htailinv e hm
              · exact hchildinv cs dd2 hres e hm
            have hih := ih _ s2 r h hallinv
            have hcmc : (childItems root cs dd2).countP
                (fun e => e.1 == root ++ [dandiset_metadata_file]) ≤ 1 := by
              rw [childItems, List.countP_map]
              rw [countP_ext _
                (fun cn : String × FSNode => cn.1 == dandiset_metadata_file)
                cs (by
                  intro cn hcn
                  simp only [Function.comp]
                  by_cases hc : cn.1 = dandiset_metadata_file <;> simp [hc])]
              exact wfbChildren_countP _ hwfcs
            have hcrc : (childItems root cs dd2).countP
                (fun e => e.1 == root) = 0 :=
              List.countP_eq_zero.mpr (by
                intro e2 he2
                simp only [childItems, List.mem_map] at he2
                obtain ⟨cn, hcn, he3⟩ := he2
                subst he3
                simp)
            rw [List.countP_append, List.countP_append, hcrc] at hih
            rw [List.countP_cons, List.countP_cons,
              if_neg (by simp :
                ¬ ((fun e : QItem =>
                    e.1 == root ++ [dandiset_metadata_file])
                  (root, node, ctx) = true)),
              if_pos (by simp :
                (fun e : QItem => e.1 == root) (root, node, ctx) = true)]
            omega
          · rw [heq] at h
            have hr : r = ⟨[], store, some e⟩ := by simpa using h.symm
            subst hr
            simp
          · rw [heq] at h
            cases hrec : findLoop (some root) a i fuel rest s2 with
            | none => rw [hrec] at h; simp at h
            | some r2 =>
                rw [hrec] at h
                have hr : r = ⟨df0 :: r2.yields, r2.store, r2.err⟩ := by
                  simpa using h.symm
                subst hr
                have hih := ih rest s2 r2 hrec htailinv
                have hnm : isMetadataFile df0 = false := by
                  cases hx : isMetadataFile df0 with
                  | false => rfl
                  | true =>
                      obtain ⟨fp2, hdfm⟩ := isMetadataFile_eq hx
                      rw [hdfm] at hdf0
                      obtain ⟨_, _, hfn, _⟩ := dandi_file_metadata_inv hdf0
                      rw [hnd] at hfn
                      simp [isFileNode] at hfn
                rw [travYields, List.countP_cons,
                  if_neg (by simp [hnm] :
                    ¬ ((fun df => isMetadataFile df) df0 = true)),
                  List.countP_cons, List.countP_cons]
                omega
          · rw [heq] at h
            have hres : resolvePath p fs = some (.dir false cs) := by
              rw [← hhead.1, hnd]
            have hpne : root ≠ p := fun hh => hrt (congrArg some hh)
            have hlt : root.length < p.length := by
              rcases Nat.lt_or_ge root.length p.length with h1 | h1
              · exact h1
              · exact absurd (List.IsPrefix.eq_of_length hhead.2
                  (Nat.le_antisymm hhead.2.length_le h1)) hpne
            have hallinv : ∀ e2 ∈ rest ++ childItems p cs dd2,
                e2.2.1 = resolvePath e2.1 fs ∧ root <+: e2.1 := by
              intro e2 he2
              rcases List.mem_append.mp he2 with hm | hm
              · exact htailinv e2 hm
              · exact hchildinv cs dd2 hres e2 hm
            have hih := ih _ s2 r h hallinv
            have hcm0 : (childItems p cs dd2).countP
                (fun e => e.1 == root ++ [dandiset_metadata_file]) = 0 :=
              List.countP_eq_zero.mpr (by
                intro e2 he2
                simp only [childItems, List.mem_map] at he2
                obtain ⟨cn, hcn, he3⟩ := he2
                subst he3
                simp only [beq_iff_eq]
                intro hcon
                have hlen := congrArg List.length hcon
                simp at hlen
                omega)
            have hcr0 : (childItems p cs dd2).countP
                (fun e => e.1 == root) = 0 :=
              List.countP_eq_zero.mpr (by
                intro e2 he2
                simp only [childItems, List.mem_map] at he2
                obtain ⟨cn, hcn, he3⟩ := he2
                subst he3
                simp only [beq_iff_eq]
                intro hcon
                have hlen := congrArg List.length hcon
                simp at hlen
                omega)
            rw [List.countP_append, List.countP_append, hcm0, hcr0] at hih
            rw [List.countP_cons, List.countP_cons]
            omega
          · rw [heq] at h
            have hr : r = ⟨[], store, some e2⟩ := by simpa using h.symm
            subst hr
            simp
          · rw [heq] at h
            have hr : r = ⟨[], store, some e⟩ := by simpa using h.symm
            subst hr
            simp
          · rw [heq] at h
            cases hrec : findLoop (some root) a i fuel rest s2 with
            | none => rw [hrec] at h; simp at h
            | some r2 =>
                rw [hrec] at h
                have hr : r = if suppressed a i df0 = true then r2
                    else ⟨df0 :: r2.yields, r2.store, r2.err⟩ := by
                  simpa using h.symm
                have hih := ih rest s2 r2 hrec htailinv
                by_cases hs : suppressed a i df0 = true
                · rw [if_pos hs] at hr
                  rw [hr]
                  rw [List.countP_cons, List.countP_cons]
                  omega
                · rw [if_neg hs] at hr
                  subst hr
                  rw [travYields]
                  cases hx : isMetadataFile df0 with
                  | true =>
                      obtain ⟨fp2, hdfm⟩ := isMetadataFile_eq hx
                      rw [hdfm] at hdf0
                      obtain ⟨_, _, _, hdisj⟩ := dandi_file_metadata_inv hdf0
                      rcases hdisj with ⟨hbad, _⟩ | ⟨rt0, hrt, hpre, hpos⟩
                      · cases hbad
                      · have hrt0 : root = rt0 := by simpa using hrt
                        subst hrt0
                        have hpm : p = root ++ [dandiset_metadata_file] :=
                          meta_path_unique hpre hpos
                        rw [List.countP_cons,
                          if_pos (by simp [hx] :
                            (fun df => isMetadataFile df) df0 = true),
                          List.countP_cons,
                          if_pos (by simp [hpm] :
                            (fun e : QItem =>
                              e.1 == root ++ [dandiset_metadata_file])
                              (p, node, ctx) = true),
                          List.countP_cons]
                        omega
                  | false =>
                      rw [List.countP_cons,
                        if_neg (by simp [hx] :
                          ¬ ((fun df => isMetadataFile df) df0 = true)),
                        List.countP_cons, List.countP_cons]
                      omega
          · rw [heq] at h
            have hr : r = ⟨[], store, some e⟩ := by simpa using h.symm
            subst hr
            simp

/-- C7: under a declared dataset root, `dandi_file` constructs the
dataset-metadata entity exactly for an existing file whose filepath is the
root's own `dandiset.yaml`; a file of the same name anywhere else comes out
as a (plain or BIDS-tagged) generic asset; and a traversal of the dataset
root yields at most one dataset-metadata entity. -/
theorem metadata_only_at_root (fs : FSNode) (root : FPath) (a i : Bool)
    (r : TravResult) (hwf : fs.wfb = true) :
    (∀ (fp : FPath) (node : Option FSNode) (bdd : Option Nat)
        (store s2 : Store) (df : DandiFile),
      dandi_file fp node (some root) bdd store = .ok (df, s2) →
      ((∃ fp2, df = .dandisetMetadata fp2)
        ↔ isFileNode node = true ∧ fp = root ++ [dandiset_metadata_file]))
  ∧ (∀ (fp : FPath) (sl : Bool) (bdd : Option Nat) (store s2 : Store)
        (df : DandiFile),
      pathName fp = dandiset_metadata_file →
      fp ≠ root ++ [dandiset_metadata_file] →
      dandi_file fp (some (.file sl)) (some root) bdd store = .ok (df, s2) →
      (∃ rp, df = .generic fp rp) ∨ ∃ rp g, df = .genericBIDS fp rp g)
  ∧ (find_dandi_files fs [root] (some root) a i = some r →
      r.yields.countP (fun df => isMetadataFile df) ≤ 1) := by
  refine ⟨?_, ?_, ?_⟩
  · intro fp node bdd store s2 df h
    constructor
    · rintro ⟨fp2, hdf⟩
      subst hdf
      obtain ⟨hfp2, hs2, hfn, hdisj⟩ := dandi_file_metadata_inv h
      refine ⟨hfn, ?_⟩
      rcases hdisj with ⟨hbad, _⟩ | ⟨rt0, hrt, hpre, hpos⟩
      · cases hbad
      · have hrt0 : rt0 = root := by simpa using hrt.symm
        subst hrt0
        exact meta_path_unique hpre hpos
    · rintro ⟨hfn, hfp⟩
      subst hfp
      rw [dandi_file_at_meta root bdd store hfn] at h
      obtain ⟨h1, h2⟩ := by simpa using h
      exact ⟨_, h1.symm⟩
  · intro fp sl bdd store s2 df hnm hne h
    exact dandi_file_yaml_elsewhere hnm hne h
  · intro hrun
    rw [find_dandi_files.eq_def] at hrun
    simp only [List.map, List.all, relTo, List.prefix_refl, if_true,
      Bool.and_true] at hrun
    rw [if_pos (by simp)] at hrun
    have hb := findLoop_meta_count fs root a i hwf _ _ _ _ hrun (by
      intro e he
      simp at he
      subst he
      exact ⟨rfl, List.prefix_refl _⟩)
    have h1 : ([(root, resolvePath root fs, (none : Option Nat))] :
        List QItem).countP
        (fun e => e.1 == root ++ [dandiset_metadata_file]) = 0 := by
      simp [List.countP_cons]
    have h2 : ([(root, resolvePath root fs, (none : Option Nat))] :
        List QItem).countP (fun e => e.1 == root) = 1 := by
      simp [List.countP_cons]
    rw [h1, h2] at hb
    simpa using hb

/-- Witness for C7 on the spec scenario: the traversal of the scenario root
yields no metadata entity at all (it is suppressed), so at most one. -/
theorem metadata_only_at_root_witness :
    List.countP (fun df => isMetadataFile df)
        [DandiFile.nwb ["ds", "sub-01", "file.nwb"] "sub-01/file.nwb",
         DandiFile.video ["ds", "sub-01", "video.mp4"] "sub-01/video.mp4"]
      ≤ 1 :=
  (metadata_only_at_root scenarioTree ["ds"] false false
      ⟨[.nwb ["ds", "sub-01", "file.nwb"] "sub-01/file.nwb",
        .video ["ds", "sub-01", "video.mp4"] "sub-01/video.mp4"],
       emptyStore, none⟩ (by decide)).2.2 rfl

end MetadataRoot

end DandiFiles
